import Mathlib

/-!
# Verification of the buildalot core against its specification

This file embeds the core data model and operations of the buildalot
container-image build planner (template binding, plan lowering to OCI
operations, buildah command materialization, retry wrapper, work executor
and cohesive output) as executable Lean definitions, and proves or refutes
the specified properties about them.

The embedding follows the Python sources:
  * `buildalot/config.py`  — bind sources, bind chains, `${param}`
    substitution, `Config.get_top_level`, `BoundConfig.get_image`,
    `BoundImage.build_architectures`
  * `buildalot/oci.py`     — lowering bound images to the OCI graph
  * `buildalot/buildah.py` — materializing the OCI graph as commands
  * `buildalot/work.py`    — `Retry.__call__` and `execute`
  * `buildalot/cohesive_output.py` — the cohesive stdout serializer
-/

set_option maxRecDepth 10000

namespace Buildalot

/-! ## Bind sources and chains (config.py) -/

/-- A value together with the name of the bind source that provided it.
Mirrors `BoundValue` in config.py; values are strings once fully bound. -/
structure BoundValue where
  sourceName : String
  value : String
deriving DecidableEq, Repr

/-- A labeled layer of bindings.  Mirrors `BindSource.__init__` in
config.py: a source name, an optional architecture list (each entry an
arch with an optional variant), and an ordered argument list. -/
structure BindSource where
  sourceName : String
  architectures : Option (List (String × Option String))
  arguments : List (String × String)
deriving DecidableEq, Repr

/-- The error raised by `BindChain.argument_value` when no layer provides
a parameter: `ValueError(f'Argument "{name}" was not provided by: {sources}')`.
It carries the parameter name and the source names of all layers consulted. -/
structure MissingParameter where
  name : String
  sources : List String
deriving DecidableEq, Repr

/-- A bind chain is the ordered list of its layers (`BindChain._links`),
outermost first. -/
abbrev BindChain := List BindSource

/-- The two nested loops of `BindChain.argument_value`: walk the layers in
order; within a layer walk its argument pairs in order; the first pair
whose name matches wins. -/
def argLookup : BindChain → String → Option BoundValue
  | [], _ => none
  | b :: rest, name =>
    match b.arguments.find? (fun p => p.1 == name) with
    | some p => some ⟨b.sourceName, p.2⟩
    | none => argLookup rest name

/-- `BindChain.argument_value`: first layer that specifies the argument
wins; if no layer provides it, raise listing every layer's source name. -/
def argumentValue (links : BindChain) (name : String) :
    Except MissingParameter BoundValue :=
  match argLookup links name with
  | some bv => .ok bv
  | none => .error ⟨name, links.map (·.sourceName)⟩

/-- `BindChain.architectures`: the first layer whose architecture list is
non-`None` determines the build set (`None` if no layer specifies). -/
def chainArchitectures : BindChain → Option (List (String × Option String))
  | [] => none
  | b :: rest =>
    match b.architectures with
    | some archs => some archs
    | none => chainArchitectures rest

/-! ## `${param}` substitution (config.py `BoundFormatString.FromStringAndChain`)

`PARAM_REGEX = re.compile(r"\x24\x7b\s*([a-zA-Z0-9-_]+)\s*\x7d")` scans a
templated string for references of the form a dollar sign, an opening
brace, optional whitespace, a name over `[a-zA-Z0-9-_]`, optional
whitespace, and a closing brace.  We embed the scan directly over the
character list of the string. -/

/-- Characters allowed in a parameter name: `[a-zA-Z0-9-_]`. -/
def isParamChar (c : Char) : Bool :=
  c.isAlpha || c.isDigit || c == '-' || c == '_'

/-- Python regex `\s` whitespace for the ASCII strings at hand. -/
def isSpaceChar (c : Char) : Bool :=
  c == ' ' || c == '\t' || c == '\n' || c == '\r'

theorem length_dropWhile_le {p : Char → Bool} (l : List Char) :
    (l.dropWhile p).length ≤ l.length := by
  induction l with
  | nil => simp [List.dropWhile]
  | cons c cs ih =>
    by_cases h : p c
    · simp only [List.dropWhile, h]
      exact Nat.le_succ_of_le ih
    · simp [List.dropWhile, h]

/-- The part of a `${ ... }` reference after the opening brace: optional
whitespace, a non-empty run of name characters, optional whitespace, and
the closing brace, with the remaining characters after the brace. -/
structure RefMatch where
  ws1 : List Char
  nameCs : List Char
  ws2 : List Char
  tail : List Char
deriving DecidableEq, Repr

/-- Try to match `\s*([a-zA-Z0-9-_]+)\s*` followed by a closing brace at
the head of the input (the input is what follows an opening brace). -/
def matchRef (l : List Char) : Option RefMatch :=
  if ((l.dropWhile isSpaceChar).takeWhile isParamChar).isEmpty then none
  else if ((((l.dropWhile isSpaceChar).dropWhile isParamChar).dropWhile
      isSpaceChar).head? == some '}') then
    some ⟨l.takeWhile isSpaceChar,
          (l.dropWhile isSpaceChar).takeWhile isParamChar,
          ((l.dropWhile isSpaceChar).dropWhile isParamChar).takeWhile isSpaceChar,
          (((l.dropWhile isSpaceChar).dropWhile isParamChar).dropWhile
            isSpaceChar).tail⟩
  else none

theorem matchRef_tail_lt {l : List Char} {m : RefMatch}
    (h : matchRef l = some m) : m.tail.length < l.length := by
  have k1 := length_dropWhile_le (p := isSpaceChar) l
  have k2 := length_dropWhile_le (p := isParamChar) (l.dropWhile isSpaceChar)
  have k3 := length_dropWhile_le (p := isSpaceChar)
    ((l.dropWhile isSpaceChar).dropWhile isParamChar)
  unfold matchRef at h
  split at h
  · cases h
  · split at h
    · simp only [Option.some.injEq] at h
      subst h
      rename_i hc
      have hne : (((l.dropWhile isSpaceChar).dropWhile isParamChar).dropWhile
          isSpaceChar) ≠ [] := by
        intro hnil
        rw [hnil] at hc
        cases hc
      have ht : (((l.dropWhile isSpaceChar).dropWhile isParamChar).dropWhile
          isSpaceChar).tail.length + 1 = (((l.dropWhile isSpaceChar).dropWhile
          isParamChar).dropWhile isSpaceChar).length := by
        cases hx : (((l.dropWhile isSpaceChar).dropWhile isParamChar).dropWhile
            isSpaceChar) with
        | nil => exact absurd hx hne
        | cons a as => simp
      simp only [RefMatch.tail]
      omega
    · cases h

/-- `PARAM_REGEX.findall`: the referenced parameter names, in scan order.
On each `$` the scanner attempts a full match of the reference shape and
on failure resumes after the `$` (no later match can start inside the
failed attempt because every match starts with the dollar sign). -/
def findParamsAux : List Char → List String
  | [] => []
  | c :: rest =>
    if c == '$' then
      match rest with
      | '{' :: rest2 =>
        match hm : matchRef rest2 with
        | some m => String.mk m.nameCs :: findParamsAux m.tail
        | none => findParamsAux ('{' :: rest2)
      | other => findParamsAux other
    else findParamsAux rest
termination_by l => l.length
decreasing_by
  all_goals simp only [List.length_cons]
  all_goals try omega
  all_goals (have hq := matchRef_tail_lt hm; omega)

/-- `findall` over a string. -/
def findParams (s : String) : List String :=
  findParamsAux s.data

/-- The `format_string` construction of `FromStringAndChain`: for each
found name, `re.sub(r"\x24\x7b\s*" + name + r"\s*\x7d", "\x7b" + name
+ "\x7d", format_string)`.  Every well-formed reference's name is in
the found set, the per-name patterns match exactly the scanner's
matches, and replacements cannot create or destroy other matches, so
the sequential per-name rewrites equal one left-to-right pass that
rewrites each matched `${ ws name ws }` span to the name in plain
braces and keeps everything else verbatim. -/
def toFormatString : List Char → List Char
  | [] => []
  | c :: rest =>
    if c == '$' then
      match rest with
      | '{' :: rest2 =>
        match hm : matchRef rest2 with
        | some m =>
          '{' :: (m.nameCs ++ '}' :: toFormatString m.tail)
        | none => c :: toFormatString ('{' :: rest2)
      | other => c :: toFormatString other
    else c :: toFormatString rest
termination_by l => l.length
decreasing_by
  all_goals simp only [List.length_cons]
  all_goals try omega
  all_goals (have hq := matchRef_tail_lt hm; omega)

/-- Errors raised by `str.format` while rendering the format string. -/
inductive FormatError where
  /-- `ValueError`: a `}` in literal text not doubled as `}}`. -/
  | singleClosingBrace
  /-- `ValueError`: the string ends inside a replacement field. -/
  | unexpectedEnd
  /-- `KeyError`: a field name that is not among the keyword values. -/
  | keyError (name : String)
  /-- `IndexError`: an empty or all-digit field name is a positional
  index, and `format` is called with keyword arguments only. -/
  | indexError (name : String)
  /-- The field uses attribute access, indexing, a conversion or a
  format spec (`.`, `[`, `!` or `:`).  CPython processes these; they
  are outside the fragment embedded here and are mapped to this marker
  instead of a result.  No field produced by `toFormatString` from a
  `${name}` reference contains these characters, so this constructor is
  unreachable in the theorems below and is never used as evidence. -/
  | unmodelledField (c : Char)
deriving DecidableEq, Repr

/-- An error of the whole substitution pipeline: `MissingParameter`
from the value-resolution loop, or a `str.format` error from
rendering. -/
inductive SubstError where
  | missingParameter (m : MissingParameter)
  | formatError (e : FormatError)
deriving DecidableEq, Repr

/-- Characters that continue a plain `str.format` field name: anything
up to the closing brace or the start of attribute access, indexing,
conversion or format-spec syntax. -/
def isFieldChar (c : Char) : Bool :=
  !(c == '}' || c == ':' || c == '!' || c == '.' || c == '[')

/-- `str.format(**str_values)` on the format string, for the fragment
relevant to the pipeline: literal text passes through with `\x7b\x7b`
collapsing to `\x7b` and `\x7d\x7d` to `\x7d`; a single `\x7d` is a
`ValueError`; a replacement field's name runs up to the closing brace
(the string ending inside the field is a `ValueError`, and `.`, `[`,
`!`, `:` leave the modelled fragment), and is looked up among the
keyword values, where an empty or all-digit name is a positional index
and raises `IndexError` and an unknown name raises `KeyError`. -/
def pyFormat (vals : List (String × String)) : List Char → Except FormatError (List Char)
  | [] => .ok []
  | c :: rest =>
    if c == '{' then
      if rest.head? == some '{' then
        (pyFormat vals rest.tail).map (fun out => '{' :: out)
      else
        if (rest.dropWhile isFieldChar).head? == some '}' then
          if (rest.takeWhile isFieldChar).all Char.isDigit then
            .error (.indexError (String.mk (rest.takeWhile isFieldChar)))
          else
            match vals.find? (fun p => p.1 == String.mk (rest.takeWhile isFieldChar)) with
            | some p =>
              (pyFormat vals (rest.dropWhile isFieldChar).tail).map
                (fun out => p.2.data ++ out)
            | none => .error (.keyError (String.mk (rest.takeWhile isFieldChar)))
        else
          match (rest.dropWhile isFieldChar).head? with
          | some a => .error (.unmodelledField a)
          | none => .error .unexpectedEnd
    else if c == '}' then
      if rest.head? == some '}' then
        (pyFormat vals rest.tail).map (fun out => '}' :: out)
      else .error .singleClosingBrace
    else (pyFormat vals rest).map (fun out => c :: out)
termination_by l => l.length
decreasing_by
  all_goals simp only [List.length_cons, List.length_tail]
  all_goals have hq := length_dropWhile_le (p := isFieldChar) rest
  all_goals omega

/-- The `values[arg_name] = bind_chain.argument_value(arg_name)` loop of
`FromStringAndChain`: resolve each found name in scan order; the first
unresolvable name aborts with its `MissingParameter` error. -/
def resolveValues (links : BindChain) :
    List String → Except MissingParameter (List (String × BoundValue))
  | [] => .ok []
  | n :: rest => do
    let v ← argumentValue links n
    let vs ← resolveValues links rest
    .ok ((n, v) :: vs)

/-- `BoundFormatString.FromStringAndChain` composed with the
`BoundFormatString.__str__` rendering that the pipeline performs when
the bound string is used: find the `${...}` references; when there are
none return the string itself unchanged (the format phase is skipped
entirely); otherwise resolve every referenced name against the chain
(first failure raises `MissingParameter`), build the format string, and
render it with `str.format` over the stringified values. -/
def fromStringAndChain (s : String) (links : BindChain) :
    Except SubstError String :=
  let names := findParams s
  if names.isEmpty then .ok s
  else
    match resolveValues links names with
    | .error m => .error (.missingParameter m)
    | .ok vals =>
      match pyFormat (vals.map (fun p => (p.1, p.2.value))) (toFormatString s.data) with
      | .ok out => .ok (String.mk out)
      | .error e => .error (.formatError e)

/-! ### Token-level view of templated strings

For stating what substitution does to each `${name}` occurrence, a
templated string is presented as a list of tokens: literal chunks (with
no dollar sign, so they cannot start a reference) and references with
valid non-empty names.  `renderToks` rebuilds the concrete string. -/

/-- A token of a templated string: a literal chunk or a `${name}`
reference. -/
inductive Tok where
  | lit (cs : List Char)
  | ref (name : List Char)
deriving DecidableEq, Repr

/-- The concrete character sequence of a token list: a reference renders
as a dollar sign, an opening brace, the name, and a closing brace. -/
def renderToks : List Tok → List Char
  | [] => []
  | .lit cs :: ts => cs ++ renderToks ts
  | .ref n :: ts => '$' :: '{' :: (n ++ '}' :: renderToks ts)

/-- Well-formedness of one token: a literal chunk holds no dollar sign
(so it starts no reference) and no brace (so the `str.format` phase
treats it as plain text); a reference name is non-empty, uses only name
characters, and is not all digits (an all-digit field name is a
positional index to `str.format`). -/
def tokOk : Tok → Bool
  | .lit cs => cs.all (fun c => !(c == '$' || c == '{' || c == '}'))
  | .ref n => (!n.isEmpty && n.all isParamChar) && !(n.all Char.isDigit)

/-- The format string `toFormatString` produces for a token list: each
reference becomes its name in plain braces. -/
def fmtToks : List Tok → List Char
  | [] => []
  | .lit cs :: ts => cs ++ fmtToks ts
  | .ref n :: ts => '{' :: (n ++ '}' :: fmtToks ts)

/-- The reference names of a token list, in order. -/
def refNames : List Tok → List String
  | [] => []
  | .lit _ :: ts => refNames ts
  | .ref n :: ts => String.mk n :: refNames ts

/-- Substitution described token-wise with an explicit lookup: literal
chunks pass through; each reference becomes the looked-up value (the
lookup is total on the names of well-formed inputs). -/
def substToksWith (lk : String → Option String) : List Tok → List Char
  | [] => []
  | .lit cs :: ts => cs ++ substToksWith lk ts
  | .ref n :: ts => ((lk (String.mk n)).getD "").data ++ substToksWith lk ts

/-- The specified substitution semantics over a bind chain: each
`${name}` occurrence is replaced by the value of the first chain layer
whose arguments contain the name (`argLookup` walks the layers
outermost-first). -/
def substToksChain (links : BindChain) : List Tok → List Char
  | [] => []
  | .lit cs :: ts => cs ++ substToksChain links ts
  | .ref n :: ts =>
    (((argLookup links (String.mk n)).map (fun bv => bv.value)).getD "").data
      ++ substToksChain links ts

/-! ## Exclusions (not present in the shipped config.py; used by the tests)

The repository's tests (`tests/bind_test.py`,
`tests/config_parsing_test.py`) use `Exclusion` from `buildalot.config`
and call `BindChain.architectures_for_image`, but the shipped
`config.py` contains neither; the implementation backing them is
missing from the sources. -/

/-- Modelled from the spec: an exclusion entry naming
`(image_id, arch, variant?)` architecture tuples to skip.  The class is
referenced by the repository's tests but absent from `config.py`. -/
structure Exclusion where
  imageId : String
  arch : String
  variant : Option String
deriving DecidableEq, Repr

/-- Modelled from the spec: a bind-source layer extended with its optional
exclusion list, as constructed by the tests
(`BindSource(source_name=..., architectures=..., arguments=..., exclusions=...)`). -/
structure BindSourceX where
  sourceName : String
  architectures : Option (List (String × Option String))
  arguments : List (String × String)
  exclusions : List Exclusion
deriving DecidableEq, Repr

/-- Modelled from the spec: whether an exclusion entry removes the
architecture tuple `(arch, variant?)` for the image `imageId`.
"Exclusions are matched by exact `(arch, variant)` equality; a
variant-less exclusion matches only variant-less entries." -/
def excludes (e : Exclusion) (imageId : String) (av : String × Option String) : Bool :=
  e.imageId == imageId && e.arch == av.1 && e.variant == av.2

/-- Modelled from the spec: `BindChain.architectures_for_image`, missing
from the shipped `config.py`.  "Architecture list = first chain layer with
a non-`None` architecture list"; "If a chain layer defines exclusions, the
architecture set *for a specific image id* is that layer's architecture
list minus any `(arch, variant?)` tuples whose exclusion entry names that
image." -/
def architecturesForImage : List BindSourceX → String →
    Option (List (String × Option String))
  | [], _ => none
  | b :: rest, imageId =>
    match b.architectures with
    | some archs =>
      some (archs.filter (fun av => !(b.exclusions.any (fun e => excludes e imageId av))))
    | none => architecturesForImage rest imageId

/-! ## Templates, configs and bound configs (config.py) -/

/-- The fields of `ImageTemplate` relevant to the verified operations
(the template strings and build arguments; argument values that are id
references are reflected as plain strings, matching `uses_id`'s string
comparison). -/
structure ImageTemplate where
  id : String
  name : String
  registry : String
  tag : String
  buildContext : String
  buildArgs : List (String × String)
deriving DecidableEq, Repr

/-- The fields of `GroupTemplate` relevant to the verified operations. -/
structure GroupTemplate where
  id : String
  images : List String
  architectures : List (String × Option String)
  providesParameters : List (String × String)
deriving DecidableEq, Repr

/-- A top-level entity of a config: an image template or a group template. -/
inductive TopLevel where
  | image (t : ImageTemplate)
  | group (g : GroupTemplate)
deriving DecidableEq, Repr

/-- The `id` attribute shared by both template kinds. -/
def TopLevel.id : TopLevel → String
  | .image t => t.id
  | .group g => g.id

/-- A parsed config: its image templates and group templates
(`Config.images` and `Config.groups`). -/
structure Config where
  images : List ImageTemplate
  groups : List GroupTemplate
deriving DecidableEq, Repr

/-- `Config.get_top_level`: walk `self.images + self.groups` and return
the first entity whose id equals the argument; `None` otherwise (the
loop falls through without a `return`). -/
def getTopLevel (c : Config) (topLevelId : String) : Option TopLevel :=
  (c.images.map TopLevel.image ++ c.groups.map TopLevel.group).find?
    (fun t => t.id == topLevelId)

/-- `str.rstrip("/")`: remove every trailing slash. -/
def rstripSlashes (s : String) : String :=
  String.mk (s.data.reverse.dropWhile (fun c => c == '/')).reverse

/-- A bound image as produced by `ImageTemplate.bind`: fully substituted
strings, plus the architecture list as exposed by the
`BoundImage.build_architectures` property, which always yields a list of
`(arch, variant?)` pairs (the empty list when no source specified
architectures). -/
structure BoundImage where
  id : String
  registry : String
  name : String
  tag : String
  buildContext : String
  buildArchitectures : List (String × Option String)
  buildArgs : List (String × String)
deriving DecidableEq, Repr

/-- `BoundImage.fully_qualified_name`:
`registry.rstrip("/") + "/" + name + ":" + tag`. -/
def BoundImage.fullyQualifiedName (b : BoundImage) : String :=
  rstripSlashes b.registry ++ "/" ++ b.name ++ ":" ++ b.tag

/-- A bound config: the bound images, the image dependency graph
(image id to the ids it depends on), the inverted dependent graph, and
the topological `build_order`. -/
structure BoundConfig where
  boundImages : List BoundImage
  dependencyGraph : List (String × List String)
  dependentGraph : List (String × List String)
  buildOrder : List String
deriving DecidableEq, Repr

/-- `BoundConfig.__build_dependent_graph`: invert the dependency graph;
`dependent_graph[image_id]` collects every *other* id whose dependency
list contains `image_id`. -/
def buildDependentGraph (dep : List (String × List String)) :
    List (String × List String) :=
  dep.map (fun e =>
    (e.1, (dep.filter (fun o => o.1 ≠ e.1 ∧ e.1 ∈ o.2)).map (·.1)))

/-- `BoundConfig.get_image`: first bound image with the given id, else
`None`. -/
def getImage (bc : BoundConfig) (imageId : String) : Option BoundImage :=
  bc.boundImages.find? (fun b => b.id == imageId)

/-- `BoundConfig.dependents_of`: the dependent-graph entry for the id
(the source indexes the dictionary; the id is always present for bound
configs built by `Config.bind`). -/
def dependentsOf (bc : BoundConfig) (imageId : String) : List String :=
  ((bc.dependentGraph.find? (fun e => e.1 == imageId)).map (·.2)).getD []

/-! ## OCI graph lowering (oci.py) -/

/-- `OCIImage`: a single-architecture image build primitive. -/
structure OCIImage where
  fullyQualifiedName : String
  context : String
  arguments : List (String × String)
  arch : Option String
  variant : Option String
deriving DecidableEq, Repr

/-- `OCIManifest`: a multi-arch manifest with its ordered member FQNs. -/
structure OCIManifest where
  fullyQualifiedName : String
  images : List String
deriving DecidableEq, Repr

/-- A node of the OCI graph. -/
inductive OCINode where
  | image (i : OCIImage)
  | manifest (m : OCIManifest)
deriving DecidableEq, Repr

/-- `fully_qualified_name` of either node kind. -/
def OCINode.fqn : OCINode → String
  | .image i => i.fullyQualifiedName
  | .manifest m => m.fullyQualifiedName

/-- The OCI graph: a dictionary from node to the set of nodes it depends
on, in insertion order. -/
abbrev OCIGraph := List (OCINode × List OCINode)

/-- Python dict assignment `d[k] = v`: replace the value at an existing
key in place, else append the new entry. -/
def dictInsert (g : OCIGraph) (k : OCINode) (v : List OCINode) : OCIGraph :=
  if g.any (fun e => e.1 == k) then
    g.map (fun e => if e.1 == k then (k, v) else e)
  else g ++ [(k, v)]

/-- `oci_graph[dependent].add(dep)`: add one element to the dependency
set of an existing key (no-op membership-wise if already present; the
key is present whenever the source calls this). -/
def addDepTo (g : OCIGraph) (k : OCINode) (dep : OCINode) : OCIGraph :=
  g.map (fun e =>
    if e.1 == k then (e.1, if dep ∈ e.2 then e.2 else e.2 ++ [dep]) else e)

/-- The tag suffix for a per-architecture image:
`f"-{arch}-{variant}"` when the variant is truthy (present and
non-empty), else `f"-{arch}"`. -/
def tagSuffix (arch : String) (variant : Option String) : String :=
  match variant with
  | some v => if v.isEmpty then "-" ++ arch else "-" ++ arch ++ "-" ++ v
  | none => "-" ++ arch

/-- The per-architecture `OCIImage` built inside `_extend_oci_graph`'s
loop over `image.build_architectures`. -/
def mkArchImage (image : BoundImage) (av : String × Option String) : OCIImage :=
  { fullyQualifiedName := image.fullyQualifiedName ++ tagSuffix av.1 av.2
    context := image.buildContext
    arguments := image.buildArgs
    arch := some av.1
    variant := av.2 }

/-- The value `_extend_oci_graph` reads from
`image.build_architectures`.  The `BoundImage.build_architectures`
property of `config.py` always returns a list (possibly empty), never
`None`, so the read is always `some`; `_extend_oci_graph`'s
`is not None` test therefore always succeeds. -/
def buildArchitecturesPy (image : BoundImage) :
    Option (List (String × Option String)) :=
  some image.buildArchitectures

/-- `_extend_oci_graph`: if a node with this image's FQN is already in
the graph, return no images; otherwise add the image's nodes (one
`OCIImage` per architecture plus a manifest over them when the
architecture value is a list, else a single plain `OCIImage`), then
recursively extend the graph with every dependent image
(`for dependent_id in bound_config.dependents_of(image.id)`), making
each returned dependent image depend on this image's manifest (or on
all of its images when no manifest was made).  The fuel bounds the
recursion depth (the Python recursion terminates because every
recursive call either returns at the duplicate-FQN check or inserts a
new FQN). -/
def extendOciGraph : Nat → OCIGraph → BoundConfig → BoundImage →
    OCIGraph × List OCINode
  | 0, g, _, _ => (g, [])
  | Nat.succ fuel, g, bc, image =>
    if g.any (fun e => e.1.fqn == image.fullyQualifiedName) then
      (g, [])
    else
      match buildArchitecturesPy image with
      | some architectures =>
        let ociImages := architectures.map (fun av => OCINode.image (mkArchImage image av))
        let g1 := ociImages.foldl (fun acc i => dictInsert acc i []) g
        let manifest : OCIManifest :=
          { fullyQualifiedName := image.fullyQualifiedName
            images := ociImages.map OCINode.fqn }
        let g2 := dictInsert g1 (OCINode.manifest manifest) ociImages
        let g3 := (dependentsOf bc image.id).foldl (fun acc depId =>
          match getImage bc depId with
          | none => acc
          | some depImage =>
            let pr := extendOciGraph fuel acc bc depImage
            pr.2.foldl (fun acc2 dep =>
              addDepTo acc2 dep (OCINode.manifest manifest)) pr.1) g2
        (g3, ociImages)
      | none =>
        let singleImage : OCIImage :=
          { fullyQualifiedName := image.fullyQualifiedName
            context := image.buildContext
            arguments := image.buildArgs
            arch := none
            variant := none }
        let g1 := dictInsert g (OCINode.image singleImage) []
        let g2 := (dependentsOf bc image.id).foldl (fun acc depId =>
          match getImage bc depId with
          | none => acc
          | some depImage =>
            let pr := extendOciGraph fuel acc bc depImage
            pr.2.foldl (fun acc2 dep =>
              addDepTo acc2 dep (OCINode.image singleImage)) pr.1) g1
        (g2, [OCINode.image singleImage])

/-- `oci.build_graph`: fold `_extend_oci_graph` over `build_order`.
The fuel `boundImages.length + 1` dominates the recursion depth, which
is bounded by the number of distinct image FQNs. -/
def buildGraphOci (bc : BoundConfig) : OCIGraph :=
  bc.buildOrder.foldl (fun g imageId =>
    match getImage bc imageId with
    | none => g
    | some image => (extendOciGraph (bc.boundImages.length + 1) g bc image).1) []

/-! ## Work items and the buildah work graph (work.py, buildah.py) -/

/-- A work item: either `ExecuteCommand(cmd, working_directory)` (a
`none` directory stands for the process working directory default) or
`Retry(work)` with the default retry envelope, which is how
`buildah.py` constructs every retry wrapper. -/
inductive Work where
  | cmd (argv : List String) (workingDirectory : Option String)
  | retry (inner : Work)
deriving DecidableEq, Repr

/-- The work graph: work item to the list of work that must finish
first.  Each Python `Work` object is a distinct dictionary key (object
identity), so the graph is an insertion-ordered list of entries. -/
abbrev WorkGraph := List (Work × List Work)

/-- `buildah._image_build`: retry-wrapped `buildah bud -t <fqn>
[--build-arg K=V]… [--arch A [--variant V]]` in the image's context. -/
def imageBuild (i : OCIImage) : Work :=
  .retry (.cmd
    (["buildah", "bud", "-t", i.fullyQualifiedName]
      ++ i.arguments.flatMap (fun p => ["--build-arg", p.1 ++ "=" ++ p.2])
      ++ (match i.arch with
          | some a => ["--arch", a] ++
            (match i.variant with
             | some v => ["--variant", v]
             | none => [])
          | none => []))
    (some i.context))

/-- `buildah._image_push`: retry-wrapped `buildah push <fqn>` (no
working directory given). -/
def imagePush (i : OCIImage) : Work :=
  .retry (.cmd ["buildah", "push", i.fullyQualifiedName] none)

/-- `buildah._manifest_create`: `buildah manifest create <fqn>`. -/
def manifestCreate (m : OCIManifest) : Work :=
  .cmd ["buildah", "manifest", "create", m.fullyQualifiedName] none

/-- `buildah._manifest_add`: one `buildah manifest add <fqn> <member>`
per member, in member order. -/
def manifestAdd (m : OCIManifest) : List Work :=
  m.images.map (fun fqn =>
    .cmd ["buildah", "manifest", "add", m.fullyQualifiedName, fqn] none)

/-- `buildah._manifest_push`: retry-wrapped
`buildah manifest push --all <fqn>`. -/
def manifestPush (m : OCIManifest) : Work :=
  .retry (.cmd ["buildah", "manifest", "push", "--all", m.fullyQualifiedName] none)

/-- The `images_to_not_push` set of `buildah.build_graph`: in push mode,
every FQN that appears in some manifest's member list. -/
def imagesToNotPush (nodes : List OCINode) (push : Bool) : List String :=
  if push then
    nodes.flatMap (fun n =>
      match n with
      | .manifest m => m.images
      | .image _ => [])
  else []

/-- State threaded through `buildah.build_graph`'s loop: the work graph
under construction and the `oci_to_work` map from processed OCI node to
its top-level work. -/
structure BuildahState where
  workGraph : WorkGraph
  ociToWork : List (OCINode × List Work)
deriving DecidableEq, Repr

/-- One iteration of `buildah.build_graph`'s loop over the topological
order of the OCI graph: collect the prerequisite work of the node's OCI
dependencies, then emit the node's work items and record its top-level
work.  (The `assert oci_dep in oci_to_work` holds whenever the order is
topological; an absent entry contributes no prerequisites.) -/
def buildahStep (ociGraph : OCIGraph) (push : Bool) (notPush : List String)
    (st : BuildahState) (thing : OCINode) : BuildahState :=
  let prerequisiteWork : List Work :=
    (((ociGraph.find? (fun e => e.1 == thing)).map (·.2)).getD []).flatMap
      (fun dep => (((st.ociToWork.find? (fun e => e.1 == dep)).map (·.2)).getD []))
  match thing with
  | .image i =>
    let build := imageBuild i
    if push && !(notPush.contains i.fullyQualifiedName) then
      { workGraph := st.workGraph ++ [(build, prerequisiteWork), (imagePush i, [build])]
        ociToWork := st.ociToWork ++ [(thing, [imagePush i])] }
    else
      { workGraph := st.workGraph ++ [(build, prerequisiteWork)]
        ociToWork := st.ociToWork ++ [(thing, [build])] }
  | .manifest m =>
    let create := manifestCreate m
    let adds := manifestAdd m
    if push then
      { workGraph := st.workGraph ++ [(create, prerequisiteWork)]
          ++ adds.map (fun a => (a, [create]))
          ++ [(manifestPush m, adds)]
        ociToWork := st.ociToWork ++ [(thing, [manifestPush m])] }
    else
      { workGraph := st.workGraph ++ [(create, prerequisiteWork)]
          ++ adds.map (fun a => (a, [create]))
        ociToWork := st.ociToWork ++ [(thing, adds)] }

/-- `buildah.build_graph`: compute `images_to_not_push`, then process
the OCI nodes in a topological order `ociOrder` of the OCI graph
(`graphlib.TopologicalSorter(oci_graph).static_order()`), building the
work graph. -/
def buildahBuildGraph (ociGraph : OCIGraph) (ociOrder : List OCINode)
    (push : Bool) : WorkGraph :=
  let notPush := imagesToNotPush (ociGraph.map (·.1)) push
  (ociOrder.foldl (buildahStep ociGraph push notPush)
    { workGraph := [], ociToWork := [] }).workGraph

/-- The standalone push node `_image_push` builds for an FQN (it
depends only on the image's fully qualified name). -/
def pushWorkFor (f : String) : Work :=
  .retry (.cmd ["buildah", "push", f] none)

/-! ## The retry wrapper (work.py `Retry.__call__`) -/

instance instDecEqExcept {ε α : Type} [DecidableEq ε] [DecidableEq α] :
    DecidableEq (Except ε α) := fun a b =>
  match a, b with
  | .ok x, .ok y =>
    if h : x = y then .isTrue (by rw [h]) else .isFalse (by simp [h])
  | .error x, .error y =>
    if h : x = y then .isTrue (by rw [h]) else .isFalse (by simp [h])
  | .ok _, .error _ => .isFalse (by simp)
  | .error _, .ok _ => .isFalse (by simp)

/-- The observable trace of one `Retry.__call__` run: how many times the
inner work was invoked, the seconds slept between consecutive attempts,
and the final outcome (`ok` when some attempt succeeded or the attempt
budget was zero; `error` when the run raised). -/
structure RetryTrace (E : Type) where
  calls : Nat
  sleeps : List Nat
  outcome : Except E Unit
deriving DecidableEq, Repr

/-- The loop `for i in range(attempts)` of `Retry.__call__`, started at
index `i` with `attempts - i` iterations left.  A raise of a designated
kind on the last attempt (or of a non-designated kind on any attempt)
ends the run with that error; otherwise the wrapper sleeps
`multiplier * i ** exponent + constant` seconds and retries. -/
def retryGo (attempts exponent multiplier constant : Nat)
    (designated : E → Bool) (inner : Nat → Except E Unit) :
    Nat → Nat → RetryTrace E
  | 0, _ => { calls := 0, sleeps := [], outcome := .ok () }
  | Nat.succ fuel, i =>
    match inner i with
    | .ok () => { calls := 1, sleeps := [], outcome := .ok () }
    | .error e =>
      if designated e then
        if i + 1 ≥ attempts then
          { calls := 1, sleeps := [], outcome := .error e }
        else
          let w := multiplier * i ^ exponent + constant
          let rest := retryGo attempts exponent multiplier constant designated
            inner fuel (i + 1)
          { calls := rest.calls + 1, sleeps := w :: rest.sleeps,
            outcome := rest.outcome }
      else
        { calls := 1, sleeps := [], outcome := .error e }

/-- `Retry.__call__` with the given envelope (defaults: `attempts=5`,
`exponent=2`, `multiplier=15`, `constant=5`): run the loop from index 0
with `attempts` iterations. -/
def retryCall (attempts exponent multiplier constant : Nat)
    (designated : E → Bool) (inner : Nat → Except E Unit) : RetryTrace E :=
  retryGo attempts exponent multiplier constant designated inner attempts 0

/-! ## The work executor (work.py `execute`)

`execute` submits every ready item to a thread pool; each future gets
three completion callbacks: `shutdown_on_error` (on a raise: print the
error to stderr, shut the pool down cancelling queued work, and set the
`all_done` event — the exception itself is consumed by `f.exception()`
and never re-raised), `remove_completed_work`, and `queue_next_work`.
The model below runs the canonical single-worker schedule: submitted
items execute one at a time in submission order and their callbacks run
synchronously on completion.  The properties verified here (what
`execute` returns and what reaches stderr) are schedule-independent:
no schedule re-raises a work item's exception to the caller of
`execute`, because every raise is consumed inside `shutdown_on_error`. -/

/-- The executor state: the remaining work graph, the submitted-but-not-
started queue, the `executor.shutdown` flag, the `all_done` event, and
the lines written to stderr. -/
structure ExecState where
  graph : WorkGraph
  queued : List Work
  shutdownFlag : Bool
  allDone : Bool
  stderrLog : List String
deriving DecidableEq, Repr

/-- `queue_next_work`: under the lock, submit every item whose
prerequisite list is empty and delete it from the graph.  After
`executor.shutdown`, `submit` raises `RuntimeError`, which the source
catches and returns on, leaving the state unchanged. -/
def queueNextWork (s : ExecState) : ExecState :=
  if s.shutdownFlag then s
  else
    { s with
      queued := s.queued ++ (s.graph.filter (fun e => e.2.isEmpty)).map (·.1)
      graph := s.graph.filter (fun e => !e.2.isEmpty) }

/-- `shutdown_on_error`: if the finished future raised, write the error
to stderr, shut the executor down (cancelling queued futures) and set
`all_done`. -/
def shutdownOnError (outcome : Except String Unit) (s : ExecState) : ExecState :=
  match outcome with
  | .ok () => s
  | .error e =>
    { s with
      stderrLog := s.stderrLog ++ ["Failed to execute command " ++ e ++ "\n"]
      shutdownFlag := true
      allDone := true }

/-- `remove_completed_work`: under the lock, remove the finished item
from every remaining prerequisite list (`list.remove` deletes the first
occurrence) and set `all_done` when the graph is empty. -/
def removeCompletedWork (w : Work) (s : ExecState) : ExecState :=
  let g := s.graph.map (fun e => (e.1, e.2.erase w))
  { s with graph := g, allDone := s.allDone || g.isEmpty }

/-- Completion of one work item: run it, then fire the three callbacks
in their registration order. -/
def completeOne (runs : Work → Except String Unit) (s : ExecState)
    (w : Work) : ExecState :=
  queueNextWork (removeCompletedWork w (shutdownOnError (runs w) s))

/-- The single-worker schedule: repeatedly start the oldest submitted
item.  After an error shutdown, queued-but-not-started futures are
cancelled and never execute. -/
def execLoop (runs : Work → Except String Unit) : Nat → ExecState → ExecState
  | 0, s => s
  | Nat.succ fuel, s =>
    if s.shutdownFlag then s
    else
      match s.queued with
      | [] => s
      | w :: rest => execLoop runs fuel (completeOne runs { s with queued := rest } w)

/-- `execute(graph)` under the single-worker schedule: submit the
initially ready work and run to quiescence.  The returned state's
`allDone` tells whether `all_done.wait()` unblocks (when it never does,
the Python process hangs); in every case `execute` itself returns
`None` to its caller — it has no path that re-raises a work item's
error. -/
def executeSeq (runs : Work → Except String Unit) (graph : WorkGraph) : ExecState :=
  execLoop runs (graph.length + 1)
    (queueNextWork
      { graph := graph, queued := [], shutdownFlag := false, allDone := false,
        stderrLog := [] })

/-- The exit code of `cli.main` as a function of the executor outcome:
`main` simply calls `work.execute(work_graph, ...)` as its last
statement and returns, so whenever `execute` returns (i.e. `all_done`
was set) the process exits 0; no code path inspects whether a work item
failed. -/
def mainExitCode (final : ExecState) : Option Nat :=
  if final.allDone then some 0 else none

/-! ## Cohesive output (cohesive_output.py)

A pure state machine over the class-level state (`output_lock` critical
sections are atomic steps).  Each stdout write is tagged with the index
of the writer whose text is written, so contiguity per writer is
observable in the model. -/

/-- Per-writer state: display name, buffered lines, `_is_active_output`
and `_exited`. -/
structure WriterSt where
  name : String
  buffer : List String
  isActive : Bool
  exited : Bool
deriving DecidableEq, Repr

/-- Global `CohesiveOutput` state: the writers (by index), the
`has_active_output` flag, the FIFO `output_queue` of writer indices, and
stdout as a list of (writer index, text) writes. -/
structure CohSt where
  writers : List WriterSt
  hasActive : Bool
  queue : List Nat
  stdout : List (Nat × String)
deriving DecidableEq, Repr

/-- Initial state for the given writer names: each `CohesiveOutput`
instance starts with its header line in its buffer
(`__init__`). -/
def cohInit (names : List String) : CohSt :=
  { writers := names.map (fun n =>
      { name := n, buffer := [">>> Begin output from: " ++ n ++ "\n"],
        isActive := false, exited := false })
    hasActive := false
    queue := []
    stdout := [] }

/-- Apply a function to writer `i`. -/
def updateWriter (s : CohSt) (i : Nat) (f : WriterSt → WriterSt) : CohSt :=
  { s with writers :=
      (s.writers.enum).map (fun p => if p.1 == i then f p.2 else p.2) }

/-- Fetch writer `i` (defaulting for out-of-range indices, which the
traces below never use). -/
def getWriter (s : CohSt) (i : Nat) : WriterSt :=
  s.writers.getD i { name := "", buffer := [], isActive := false, exited := false }

/-- `_next_in_queue`: pop the front of the queue (return unchanged when
empty); dump the popped writer's whole buffer to stdout; if it has not
exited, make it the active output. -/
def nextInQueue (s : CohSt) : CohSt :=
  match s.queue with
  | [] => s
  | i :: rest =>
    let w := getWriter s i
    let s1 := { s with queue := rest,
                       stdout := s.stdout ++ w.buffer.map (fun l => (i, l)) }
    if !w.exited then
      { (updateWriter s1 i (fun ws => { ws with isActive := true })) with
        hasActive := true }
    else s1

/-- `__enter__` / `_join_output_queue`: append the writer to the FIFO;
when nothing is active, promote the front of the queue. -/
def cohOpen (s : CohSt) (i : Nat) : CohSt :=
  let s1 := { s with queue := s.queue ++ [i] }
  if !s1.hasActive then nextInQueue s1 else s1

/-- `write`: an active writer streams straight to stdout; any other
writer appends to its buffer. -/
def cohWrite (s : CohSt) (i : Nat) (line : String) : CohSt :=
  if (getWriter s i).isActive then
    { s with stdout := s.stdout ++ [(i, line)] }
  else
    updateWriter s i (fun ws => { ws with buffer := ws.buffer ++ [line] })

/-- `__exit__`: write the trailer line through `write`, then under the
class lock mark the writer exited and inactive, clear
`has_active_output`, and promote the next queued writer. -/
def cohClose (s : CohSt) (i : Nat) : CohSt :=
  let s1 := cohWrite s i ("<<< End output from: " ++ (getWriter s i).name ++ "\n")
  let s2 := { (updateWriter s1 i
      (fun ws => { ws with exited := true, isActive := false })) with
    hasActive := false }
  nextInQueue s2

/-- A sequential trace of writer operations. -/
inductive CohOp where
  | openW (i : Nat)
  | writeW (i : Nat) (line : String)
  | closeW (i : Nat)
deriving DecidableEq, Repr

/-- Run a trace from the initial state. -/
def cohRun (names : List String) (ops : List CohOp) : CohSt :=
  ops.foldl (fun s op =>
    match op with
    | .openW i => cohOpen s i
    | .writeW i l => cohWrite s i l
    | .closeW i => cohClose s i) (cohInit names)

/-- Whether all stdout writes tagged with writer `i` form one contiguous
run. -/
def contiguousFor (i : Nat) (out : List (Nat × String)) : Bool :=
  let tags := out.map (·.1)
  !(((tags.dropWhile (fun t => t != i)).dropWhile (fun t => t == i)).contains i)

/-- The specification's description of a per-architecture OCI image
node (for comparison with `mkArchImage`, which embeds the source): FQN
is the bound image's base FQN suffixed with a dash and the architecture,
and additionally a dash and the variant when a variant is present; it
carries the image's build context and arguments and the populated
arch/variant. -/
def specArchImage (b : BoundImage) (av : String × Option String) : OCIImage :=
  { fullyQualifiedName := b.fullyQualifiedName ++ "-" ++ av.1
      ++ (match av.2 with | some v => "-" ++ v | none => "")
    context := b.buildContext
    arguments := b.buildArgs
    arch := some av.1
    variant := av.2 }

/-! ## Concrete fixtures used by the evaluations below -/

/-- A bound image with the given id and architectures, context
`ctx/<id>` and FQN `localhost/<id>:latest`. -/
def fixtureImage (i : String) (archs : List (String × Option String)) : BoundImage :=
  { id := i, registry := "localhost", name := i, tag := "latest",
    buildContext := "ctx/" ++ i, buildArchitectures := archs, buildArgs := [] }

/-- Diamond dependency graph: `b` is built FROM both `a1` and `a2`. -/
def diamondDependencies : List (String × List String) :=
  [("a1", []), ("a2", []), ("b", ["a1", "a2"])]

/-- The bound config for the diamond, every image multi-arch with the
single architecture `amd64`. -/
def diamondConfig : BoundConfig :=
  { boundImages := [fixtureImage "a1" [("amd64", none)],
                    fixtureImage "a2" [("amd64", none)],
                    fixtureImage "b" [("amd64", none)]],
    dependencyGraph := diamondDependencies,
    dependentGraph := buildDependentGraph diamondDependencies,
    buildOrder := ["a1", "a2", "b"] }

/-- A config with one image whose resolved architecture list is empty. -/
def soloConfig : BoundConfig :=
  { boundImages := [fixtureImage "solo" []],
    dependencyGraph := [("solo", [])],
    dependentGraph := buildDependentGraph [("solo", [])],
    buildOrder := ["solo"] }

/-- The writer trace of the repository's own
`tests/cohesive_output_test.py::test_nested_output`: writer 0 (`co1`)
opens and streams; writer 1 (`co2`) opens while 0 is active, writes,
and closes before 0 does. -/
def nestedTrace : List CohOp :=
  [.openW 0, .writeW 0 "co1: foo\n", .openW 1, .writeW 1 "co2: foo\n",
   .writeW 0 "co1: bar\n", .writeW 1 "co2: bar\n", .closeW 1,
   .writeW 0 "co1: baz\n", .closeW 0]

/-- Whether a node is an `OCIImage` with the given FQN. -/
def isImageWithFqn (f : String) : OCINode → Bool
  | .image i => i.fullyQualifiedName == f
  | .manifest _ => false

/-- The FQN of an image node (`none` for manifests). -/
def imageFqnOf : OCINode → Option String
  | .image i => some i.fullyQualifiedName
  | .manifest _ => none

/-- A per-arch OCI image that is a member of a manifest. -/
def memberImage : OCIImage :=
  { fullyQualifiedName := "localhost/app:latest-amd64", context := "ctx/app",
    arguments := [], arch := some "amd64", variant := none }

/-- The manifest over `memberImage`. -/
def appManifest : OCIManifest :=
  { fullyQualifiedName := "localhost/app:latest",
    images := ["localhost/app:latest-amd64"] }

/-- A standalone single-arch OCI image, member of no manifest. -/
def standaloneImage : OCIImage :=
  { fullyQualifiedName := "localhost/tool:latest", context := "ctx/tool",
    arguments := [], arch := none, variant := none }

/-- An OCI graph with one multi-arch set and one standalone image. -/
def pushFixtureGraph : OCIGraph :=
  [(OCINode.image memberImage, []),
   (OCINode.manifest appManifest, [OCINode.image memberImage]),
   (OCINode.image standaloneImage, [])]

/-- A topological order of `pushFixtureGraph`. -/
def pushFixtureOrder : List OCINode :=
  [OCINode.image memberImage, OCINode.manifest appManifest,
   OCINode.image standaloneImage]

/-- A command-line bind layer providing `x=1`. -/
def cliSource : BindSource :=
  { sourceName := "__command_line__", architectures := none,
    arguments := [("x", "1")] }

/-- A group bind layer providing `x=2` and `y=3` (shadowed `x`). -/
def groupSource : BindSource :=
  { sourceName := "humble", architectures := none,
    arguments := [("x", "2"), ("y", "3")] }

/-- The token view of the templated string `a${x}b${y}c`. -/
def c1Toks : List Tok :=
  [Tok.lit ['a'], Tok.ref ['x'], Tok.lit ['b'], Tok.ref ['y'], Tok.lit ['c']]

/-- A command-line bind layer providing a value under the all-digit name
`123` (a legal name for the `${...}` scanner, but a positional index to
`str.format`). -/
def digitSource : BindSource :=
  { sourceName := "__command_line__", architectures := none,
    arguments := [("123", "7")] }

/-- The bind source of the repository's `tests/bind_test.py`. -/
def foobarSource : BindSourceX :=
  { sourceName := "foobar",
    architectures := some [("amd64", none), ("arm", some "v7"), ("arm64", some "v8")],
    arguments := [],
    exclusions := [{ imageId := "no_amd_image", arch := "amd64", variant := none }] }

/-- A small parsed config with one image and one group. -/
def sampleImage : ImageTemplate :=
  { id := "ros_core", name := "ros", registry := "${registry}",
    tag := "${rosdistro}-ros-core", buildContext := "ros2/ros-core",
    buildArgs := [("FROM", "${ubuntu_image}")] }

/-- The group of the small parsed config. -/
def sampleGroup : GroupTemplate :=
  { id := "humble", images := ["ros_core"],
    architectures := [("amd64", none), ("arm64", some "v8")],
    providesParameters := [("rosdistro", "humble"), ("ubuntu_image", "ubuntu:jammy")] }

/-- The small parsed config. -/
def sampleConfig : Config :=
  { images := [sampleImage], groups := [sampleGroup] }

/-- A work item whose execution always raises `CommandFailed` (a
designated error: the subprocess exited non-zero). -/
def alwaysFailing : Work → Except String Unit :=
  fun _ => .error "CommandFailed"

/-- A one-item work graph whose only item fails. -/
def failingGraph : WorkGraph :=
  [(Work.cmd ["false"] none, [])]

end Buildalot

namespace Buildalot

/-! ## Shared helper lemmas -/

theorem find?_append_first {α} (p : α → Bool) :
    ∀ (pre : List α) (x : α) (post : List α), p x = true →
    (∀ y ∈ pre, p y = false) → (pre ++ x :: post).find? p = some x := by
  intro pre
  induction pre with
  | nil =>
    intro x post hx _
    simp [List.find?, hx]
  | cons a rest ih =>
    intro x post hx hpre
    have ha : p a = false := hpre a (by simp)
    simp only [List.cons_append, List.find?, ha]
    exact ih x post hx (fun y hy => hpre y (by simp [hy]))

theorem architecturesForImage_skip (rest : List BindSourceX) (imageId : String) :
    ∀ pre : List BindSourceX, (∀ b ∈ pre, b.architectures = none) →
    architecturesForImage (pre ++ rest) imageId
      = architecturesForImage rest imageId := by
  intro pre
  induction pre with
  | nil => intro _; rfl
  | cons b bs ih =>
    intro h
    have hb : b.architectures = none := h b (by simp)
    simp only [List.cons_append, architecturesForImage, hb]
    exact ih (fun x hx => h x (by simp [hx]))

theorem dictInsert_fresh (g : OCIGraph) (k : OCINode) (v : List OCINode)
    (h : ∀ e ∈ g, e.1 ≠ k) : dictInsert g k v = g ++ [(k, v)] := by
  unfold dictInsert
  rw [if_neg]
  simp only [List.any_eq_true, not_exists]
  intro e hmem
  obtain ⟨hin, hbeq⟩ := hmem
  exact h e hin (by simpa using hbeq)

theorem foldl_dictInsert_fresh :
    ∀ (ks : List OCINode) (g : OCIGraph),
    (∀ k ∈ ks, ∀ e ∈ g, e.1 ≠ k) → ks.Nodup →
    ks.foldl (fun acc i => dictInsert acc i []) g
      = g ++ ks.map (fun k => (k, ([] : List OCINode))) := by
  intro ks
  induction ks with
  | nil => intro g _ _; simp
  | cons k rest ih =>
    intro g hfresh hnd
    have hk : dictInsert g k [] = g ++ [(k, [])] :=
      dictInsert_fresh g k [] (fun e hin => hfresh k (by simp) e hin)
    simp only [List.foldl_cons, hk]
    rw [ih (g ++ [(k, [])])]
    · simp
    · intro k' hk' e he
      rcases List.mem_append.mp he with hg | hsingle
      · exact hfresh k' (by simp [hk']) e hg
      · have he1 : e = (k, []) := by simpa using hsingle
        rw [he1]
        intro hcontra
        have hkk : k = k' := hcontra
        exact (List.nodup_cons.mp hnd).1 (hkk ▸ hk')
    · exact (List.nodup_cons.mp hnd).2

theorem takeWhile_append_all {p : Char → Bool} :
    ∀ (l1 l2 : List Char), (∀ c ∈ l1, p c = true) →
    (l1 ++ l2).takeWhile p = l1 ++ l2.takeWhile p := by
  intro l1
  induction l1 with
  | nil => intro l2 _; simp
  | cons c cs ih =>
    intro l2 h
    have hc : p c = true := h c (by simp)
    simp only [List.cons_append, List.takeWhile_cons, hc, if_true]
    rw [ih l2 (fun x hx => h x (by simp [hx]))]

theorem dropWhile_append_all {p : Char → Bool} :
    ∀ (l1 l2 : List Char), (∀ c ∈ l1, p c = true) →
    (l1 ++ l2).dropWhile p = l2.dropWhile p := by
  intro l1
  induction l1 with
  | nil => intro l2 _; simp
  | cons c cs ih =>
    intro l2 h
    have hc : p c = true := h c (by simp)
    simp only [List.cons_append, List.dropWhile_cons, hc, if_true]
    exact ih l2 (fun x hx => h x (by simp [hx]))

theorem paramChar_not_space {c : Char} (h : isParamChar c = true) :
    isSpaceChar c = false := by
  cases hsp : isSpaceChar c with
  | false => rfl
  | true =>
    exfalso
    unfold isSpaceChar at hsp
    rcases (by simpa using hsp : ((c = ' ' ∨ c = '\t') ∨ c = '\n') ∨ c = '\r')
        with ⟨⟨h1 | h1⟩ | h1⟩ | h1 <;>
      (subst h1; exact absurd h (by decide))

theorem matchRef_render (n rest : List Char) (hn : n ≠ [])
    (hp : ∀ c ∈ n, isParamChar c = true) :
    matchRef (n ++ '}' :: rest) = some ⟨[], n, [], rest⟩ := by
  have hnosp : ∀ c ∈ n, isSpaceChar c = false := fun c hc =>
    paramChar_not_space (hp c hc)
  have hdropsp : (n ++ '}' :: rest).dropWhile isSpaceChar = n ++ '}' :: rest := by
    cases n with
    | nil => exact absurd rfl hn
    | cons c cs =>
      have : isSpaceChar c = false := hnosp c (by simp)
      simp [List.dropWhile_cons, this]
  have htakesp : (n ++ '}' :: rest).takeWhile isSpaceChar = [] := by
    cases n with
    | nil => exact absurd rfl hn
    | cons c cs =>
      have : isSpaceChar c = false := hnosp c (by simp)
      simp [List.takeWhile_cons, this]
  have htakep : (n ++ '}' :: rest).takeWhile isParamChar = n := by
    rw [takeWhile_append_all n ('}' :: rest) hp]
    simp [List.takeWhile_cons, (by decide : isParamChar '}' = false)]
  have hdropp : (n ++ '}' :: rest).dropWhile isParamChar = '}' :: rest := by
    rw [dropWhile_append_all n ('}' :: rest) hp]
    simp [List.dropWhile_cons, (by decide : isParamChar '}' = false)]
  have hdropsp2 : ('}' :: rest).dropWhile isSpaceChar = '}' :: rest := by
    simp [List.dropWhile_cons, (by decide : isSpaceChar '}' = false)]
  have htakesp2 : ('}' :: rest).takeWhile isSpaceChar = [] := by
    simp [List.takeWhile_cons, (by decide : isSpaceChar '}' = false)]
  unfold matchRef
  rw [hdropsp, htakep, hdropp, hdropsp2, htakesp2, htakesp]
  have hne : n.isEmpty = false := by
    cases n with
    | nil => exact absurd rfl hn
    | cons c cs => rfl
  simp [hne]

theorem findParamsAux_nil : findParamsAux [] = [] := by
  rw [findParamsAux.eq_def]

theorem findParamsAux_cons_nd (c : Char) (rest : List Char)
    (h : (c == '$') = false) :
    findParamsAux (c :: rest) = findParamsAux rest := by
  rw [findParamsAux.eq_def]
  simp [h]

theorem findParamsAux_ref (n rest : List Char) (hn : n ≠ [])
    (hp : ∀ c ∈ n, isParamChar c = true) :
    findParamsAux ('$' :: '{' :: (n ++ '}' :: rest))
      = String.mk n :: findParamsAux rest := by
  rw [findParamsAux.eq_def]
  dsimp only
  rw [if_pos (by decide : (('$' : Char) == '$') = true)]
  split
  · rename_i m hm
    injection hm with hm2 hm3
    subst hm3
    split
    · rename_i mm hmm
      rw [matchRef_render n rest hn hp] at hmm
      injection hmm with hmm1
      rw [← hmm1]
    · rename_i hmm
      rw [matchRef_render n rest hn hp] at hmm
      cases hmm
  · rename_i hm
    exact absurd rfl (hm (n ++ '}' :: rest))

theorem toFormatString_nil : toFormatString [] = [] := by
  rw [toFormatString.eq_def]

theorem toFormatString_cons_nd (c : Char) (rest : List Char)
    (h : (c == '$') = false) :
    toFormatString (c :: rest) = c :: toFormatString rest := by
  rw [toFormatString.eq_def]
  simp [h]

theorem toFormatString_ref (n rest : List Char)
    (hn : n ≠ []) (hp : ∀ c ∈ n, isParamChar c = true) :
    toFormatString ('$' :: '{' :: (n ++ '}' :: rest))
      = '{' :: (n ++ '}' :: toFormatString rest) := by
  rw [toFormatString.eq_def]
  dsimp only
  rw [if_pos (by decide : (('$' : Char) == '$') = true)]
  split
  · rename_i m hm
    injection hm with hm2 hm3
    subst hm3
    split
    · rename_i mm hmm
      rw [matchRef_render n rest hn hp] at hmm
      injection hmm with hmm1
      rw [← hmm1]
    · rename_i hmm
      rw [matchRef_render n rest hn hp] at hmm
      cases hmm
  · rename_i hm
    exact absurd rfl (hm (n ++ '}' :: rest))

theorem findParamsAux_append_lit :
    ∀ (cs rest : List Char), (∀ c ∈ cs, (c == '$') = false) →
    findParamsAux (cs ++ rest) = findParamsAux rest := by
  intro cs
  induction cs with
  | nil => intro rest _; rfl
  | cons c cs' ih =>
    intro rest h
    rw [List.cons_append, findParamsAux_cons_nd c _ (h c (by simp))]
    exact ih rest (fun x hx => h x (by simp [hx]))

theorem toFormatString_append_lit :
    ∀ (cs rest : List Char), (∀ c ∈ cs, (c == '$') = false) →
    toFormatString (cs ++ rest) = cs ++ toFormatString rest := by
  intro cs
  induction cs with
  | nil => intro rest _; rfl
  | cons c cs' ih =>
    intro rest h
    rw [List.cons_append, toFormatString_cons_nd c _ (h c (by simp))]
    rw [ih rest (fun x hx => h x (by simp [hx]))]
    rfl

theorem tokOk_lit_chars {cs : List Char} (h : tokOk (Tok.lit cs) = true) :
    ∀ c ∈ cs, (c == '$') = false ∧ (c == '{') = false ∧ (c == '}') = false := by
  intro c hc
  have h' : ∀ x ∈ cs, (¬x = '$' ∧ ¬x = '{') ∧ ¬x = '}' := by
    simpa [tokOk, List.all_eq_true] using h
  have hcc := h' c hc
  exact ⟨beq_eq_false_iff_ne.mpr hcc.1.1, beq_eq_false_iff_ne.mpr hcc.1.2,
    beq_eq_false_iff_ne.mpr hcc.2⟩

theorem tokOk_lit_nodollar {cs : List Char} (h : tokOk (Tok.lit cs) = true) :
    ∀ c ∈ cs, (c == '$') = false :=
  fun c hc => (tokOk_lit_chars h c hc).1

theorem tokOk_ref_name {n : List Char} (h : tokOk (Tok.ref n) = true) :
    n ≠ [] ∧ (∀ c ∈ n, isParamChar c = true) ∧ n.all Char.isDigit = false := by
  simp only [tokOk, Bool.and_eq_true, Bool.not_eq_true'] at h
  refine ⟨?_, List.all_eq_true.mp h.1.2, h.2⟩
  intro hnil
  subst hnil
  simp at h

theorem findParamsAux_render :
    ∀ ts : List Tok, (∀ t ∈ ts, tokOk t = true) →
    findParamsAux (renderToks ts) = refNames ts := by
  intro ts
  induction ts with
  | nil => intro _; exact findParamsAux_nil
  | cons t ts' ih =>
    intro h
    cases t with
    | lit cs =>
      rw [renderToks, findParamsAux_append_lit cs _
        (tokOk_lit_nodollar (h (Tok.lit cs) (by simp)))]
      rw [ih (fun x hx => h x (by simp [hx]))]
      rfl
    | ref n =>
      obtain ⟨hn, hp, _⟩ := tokOk_ref_name (h (Tok.ref n) (by simp))
      rw [renderToks, findParamsAux_ref n _ hn hp]
      rw [ih (fun x hx => h x (by simp [hx]))]
      rfl

theorem toFormatString_render :
    ∀ ts : List Tok, (∀ t ∈ ts, tokOk t = true) →
    toFormatString (renderToks ts) = fmtToks ts := by
  intro ts
  induction ts with
  | nil => intro _; exact toFormatString_nil
  | cons t ts' ih =>
    intro h
    cases t with
    | lit cs =>
      rw [renderToks, toFormatString_append_lit cs _
        (tokOk_lit_nodollar (h (Tok.lit cs) (by simp)))]
      rw [ih (fun x hx => h x (by simp [hx]))]
      rfl
    | ref n =>
      obtain ⟨hn, hp, _⟩ := tokOk_ref_name (h (Tok.ref n) (by simp))
      rw [renderToks, toFormatString_ref n _ hn hp]
      rw [ih (fun x hx => h x (by simp [hx]))]
      rfl

theorem paramChar_isFieldChar {c : Char} (h : isParamChar c = true) :
    isFieldChar c = true := by
  cases hb : (c == '}' || c == ':' || c == '!' || c == '.' || c == '[') with
  | false => simp [isFieldChar, hb]
  | true =>
    exfalso
    simp only [Bool.or_eq_true, beq_iff_eq] at hb
    rcases hb with ⟨⟨⟨h1 | h1⟩ | h1⟩ | h1⟩ | h1 <;>
      (subst h1; exact absurd h (by decide))

theorem fieldChar_facts (n : List Char) (rest : List Char)
    (hp : ∀ c ∈ n, isParamChar c = true) :
    (n ++ '}' :: rest).dropWhile isFieldChar = '}' :: rest ∧
    (n ++ '}' :: rest).takeWhile isFieldChar = n := by
  have hf : ∀ c ∈ n, isFieldChar c = true :=
    fun c hc => paramChar_isFieldChar (hp c hc)
  constructor
  · rw [dropWhile_append_all n _ hf]
    simp [List.dropWhile_cons, (by decide : isFieldChar '}' = false)]
  · rw [takeWhile_append_all n _ hf]
    simp [List.takeWhile_cons, (by decide : isFieldChar '}' = false)]

theorem pyFormat_nil (vals : List (String × String)) :
    pyFormat vals [] = .ok [] := by
  rw [pyFormat.eq_def]

theorem pyFormat_cons_lit (vals : List (String × String)) (c : Char)
    (rest out : List Char) (h1 : (c == '{') = false)
    (h2 : (c == '}') = false) (hrec : pyFormat vals rest = .ok out) :
    pyFormat vals (c :: rest) = .ok (c :: out) := by
  rw [pyFormat.eq_def]
  simp [h1, h2, hrec, Except.map]

theorem pyFormat_append_lit (vals : List (String × String)) :
    ∀ (cs rest out : List Char),
    (∀ c ∈ cs, (c == '{') = false ∧ (c == '}') = false) →
    pyFormat vals rest = .ok out →
    pyFormat vals (cs ++ rest) = .ok (cs ++ out) := by
  intro cs
  induction cs with
  | nil => intro rest out _ hrec; simpa using hrec
  | cons c cs' ih =>
    intro rest out h hrec
    have hc := h c (by simp)
    rw [List.cons_append, pyFormat_cons_lit vals c _ _ hc.1 hc.2
      (ih rest out (fun x hx => h x (by simp [hx])) hrec)]
    rfl

theorem pyFormat_field (vals : List (String × String)) (n rest out : List Char)
    (hn : n ≠ []) (hp : ∀ c ∈ n, isParamChar c = true)
    (hnd : n.all Char.isDigit = false) (p : String × String)
    (hfind : vals.find? (fun q => q.1 == String.mk n) = some p)
    (hrec : pyFormat vals rest = .ok out) :
    pyFormat vals ('{' :: (n ++ '}' :: rest)) = .ok (p.2.data ++ out) := by
  obtain ⟨hd, ht⟩ := fieldChar_facts n rest hp
  have hhead : ((n ++ '}' :: rest).head? == some '{') = false := by
    cases n with
    | nil => exact absurd rfl hn
    | cons c0 n' =>
      have hc0 := hp c0 (by simp)
      simp only [List.cons_append, List.head?_cons, beq_eq_false_iff_ne, ne_eq,
        Option.some.injEq]
      intro he
      rw [he] at hc0
      exact absurd hc0 (by decide)
  rw [pyFormat.eq_def]
  dsimp only
  rw [if_pos (by decide : (('{' : Char) == '{') = true),
    if_neg (by rw [hhead]; exact Bool.false_ne_true), hd, ht,
    if_pos (by simp), if_neg (by simp [hnd]), hfind]
  dsimp only [List.tail_cons]
  rw [hrec]
  rfl

theorem pyFormat_render (vals : List (String × String)) :
    ∀ ts : List Tok, (∀ t ∈ ts, tokOk t = true) →
    (∀ s ∈ refNames ts, ((vals.find? (fun p => p.1 == s)).isSome = true)) →
    pyFormat vals (fmtToks ts)
      = .ok (substToksWith
          (fun nm => (vals.find? (fun p => p.1 == nm)).map (fun p => p.2)) ts) := by
  intro ts
  induction ts with
  | nil => intro _ _; exact pyFormat_nil vals
  | cons t ts' ih =>
    intro h hres
    cases t with
    | lit cs =>
      have hch : ∀ c ∈ cs, (c == '{') = false ∧ (c == '}') = false :=
        fun c hc => (tokOk_lit_chars (h (Tok.lit cs) (by simp)) c hc).2
      rw [fmtToks, substToksWith]
      exact pyFormat_append_lit vals cs _ _ hch
        (ih (fun x hx => h x (by simp [hx]))
          (fun s hs => hres s (by simp [refNames, hs])))
    | ref n =>
      obtain ⟨hn, hp, hnd⟩ := tokOk_ref_name (h (Tok.ref n) (by simp))
      have hsome := hres (String.mk n) (by simp [refNames])
      obtain ⟨p, hpfind⟩ := Option.isSome_iff_exists.mp hsome
      rw [fmtToks, substToksWith,
        pyFormat_field vals n _ _ hn hp hnd p hpfind
          (ih (fun x hx => h x (by simp [hx]))
            (fun s hs => hres s (by simp [refNames, hs])))]
      simp [hpfind]

theorem substToksWith_eq_chain (links : BindChain)
    (lk : String → Option String) :
    ∀ ts : List Tok,
    (∀ s ∈ refNames ts, lk s = (argLookup links s).map (fun bv => bv.value)) →
    substToksWith lk ts = substToksChain links ts := by
  intro ts
  induction ts with
  | nil => intro _; rfl
  | cons t ts' ih =>
    intro h
    cases t with
    | lit cs =>
      rw [substToksWith, substToksChain,
        ih (fun s hs => h s (by simp [refNames, hs]))]
    | ref n =>
      rw [substToksWith, substToksChain,
        ih (fun s hs => h s (by simp [refNames, hs])),
        h (String.mk n) (by simp [refNames])]

theorem substToksChain_no_refs (links : BindChain) :
    ∀ ts : List Tok, refNames ts = [] →
    substToksChain links ts = renderToks ts := by
  intro ts
  induction ts with
  | nil => intro _; rfl
  | cons t ts' ih =>
    intro h
    cases t with
    | lit cs =>
      rw [substToksChain, renderToks, ih (by simpa [refNames] using h)]
    | ref n =>
      simp [refNames] at h

theorem resolveValues_ok (links : BindChain) :
    ∀ ns : List String, (∀ n ∈ ns, argLookup links n ≠ none) →
    resolveValues links ns
      = .ok (ns.map (fun n => (n, (argLookup links n).getD ⟨"", ""⟩))) := by
  intro ns
  induction ns with
  | nil => intro _; rfl
  | cons n ns' ih =>
    intro h
    obtain ⟨bv, hbv⟩ := Option.ne_none_iff_exists'.mp (h n (by simp))
    rw [resolveValues]
    rw [show argumentValue links n = .ok bv by simp [argumentValue, hbv]]
    rw [ih (fun x hx => h x (by simp [hx]))]
    simp only [List.map_cons, hbv, Option.getD_some]
    rfl

theorem resolveValues_err (links : BindChain) :
    ∀ ns : List String, (∃ n ∈ ns, argLookup links n = none) →
    ∃ m, resolveValues links ns
      = .error ⟨m, links.map (fun l => l.sourceName)⟩ := by
  intro ns
  induction ns with
  | nil =>
    rintro ⟨n, hn, _⟩
    cases hn
  | cons n ns' ih =>
    rintro ⟨m, hm, hml⟩
    cases hx : argLookup links n with
    | none =>
      refine ⟨n, ?_⟩
      rw [resolveValues]
      rw [show argumentValue links n
        = .error ⟨n, links.map (fun l => l.sourceName)⟩ by
          simp [argumentValue, hx]]
      rfl
    | some bv =>
      have hmem : m ∈ ns' := by
        rcases List.mem_cons.mp hm with h1 | h1
        · subst h1
          rw [hx] at hml
          cases hml
        · exact h1
      obtain ⟨m', hm'⟩ := ih ⟨m, hmem, hml⟩
      refine ⟨m', ?_⟩
      rw [resolveValues]
      rw [show argumentValue links n = .ok bv by simp [argumentValue, hx]]
      rw [hm']
      rfl

theorem find?_map_keyed {α : Type} (g : String → String × α) :
    ∀ (ns : List String) (n : String), n ∈ ns →
    (∀ m, (g m).1 = m) →
    ((ns.map g).find? (fun p => p.1 == n)) = some (g n) := by
  intro ns
  induction ns with
  | nil =>
    intro n hn
    cases hn
  | cons m ms ih =>
    intro n hn hg
    by_cases hmn : m = n
    · subst hmn
      simp [List.find?, hg m]
    · have hne : ((g m).1 == n) = false := by
        rw [hg m]
        simpa using hmn
      have hnms : n ∈ ms := by
        rcases List.mem_cons.mp hn with h1 | h1
        · exact absurd h1.symm hmn
        · exact h1
      simp only [List.map_cons, List.find?, hne]
      exact ih n hnms hg

/-! ## Claim theorems -/

/-- C3 (divergence evaluation): lowering the one-image bound config
whose image has an *empty* resolved architecture list yields a graph
with a single `OCIManifest` node with zero members and **no** `OCIImage`
node at all — not, as claimed, a single plain `OCIImage` and no
manifest.  `BoundImage.build_architectures` returns `[]` (a list, never
`None`) for such an image, so `_extend_oci_graph`'s
`if architectures is not None` test succeeds and the multi-arch branch
runs over zero architectures. -/
theorem c3_empty_architectures_emit_empty_manifest :
    buildGraphOci soloConfig
      = [(OCINode.manifest ⟨"localhost/solo:latest", []⟩, [])]
    ∧ (buildGraphOci soloConfig).countP
        (fun e => match e.1 with | OCINode.image _ => true | _ => false) = 0 := by
  constructor
  · decide
  · decide

/-- C4 (divergence evaluation): in the diamond configuration
(`b` depends on both `a1` and `a2`), the OCI graph contains `b`'s
per-arch image exactly once, with an edge to `a1`'s manifest — but **no**
edge to `a2`'s manifest, because `_extend_oci_graph` returns an empty
tuple at the duplicate-FQN check, so the caller's
`for dependent in dependent_oci_images` loop adds no cross-edges on the
second visit. -/
theorem c4_diamond_drops_second_parent_edge :
    (buildGraphOci diamondConfig).countP
        (fun e => e.1.fqn == "localhost/b:latest-amd64") = 1
    ∧ (∃ e ∈ buildGraphOci diamondConfig,
        e.1.fqn = "localhost/b:latest-amd64"
        ∧ OCINode.manifest ⟨"localhost/a1:latest", ["localhost/a1:latest-amd64"]⟩ ∈ e.2)
    ∧ (∀ e ∈ buildGraphOci diamondConfig,
        e.1.fqn = "localhost/b:latest-amd64" →
        OCINode.manifest ⟨"localhost/a2:latest", ["localhost/a2:latest-amd64"]⟩ ∉ e.2) := by
  refine ⟨by decide, ⟨?_, ?_⟩⟩
  · decide
  · decide

/-- C7 (divergence evaluation): executing a one-item graph whose item
always fails leaves the executor with `all_done` set and the error
only *printed* to stderr; `execute` returns normally and `cli.main`
falls off its end, so the process exit code is 0 — not non-zero as
claimed.  (`shutdown_on_error` consumes the exception via
`f.exception()`; no code path re-raises it or sets an exit status.) -/
theorem c7_failed_work_still_exits_zero :
    executeSeq alwaysFailing failingGraph
      = { graph := [], queued := [], shutdownFlag := true, allDone := true,
          stderrLog := ["Failed to execute command CommandFailed\n"] }
    ∧ mainExitCode (executeSeq alwaysFailing failingGraph) = some 0 := by
  constructor
  · decide
  · decide

/-- C8 (divergence evaluation): in the sequential interleaving of the
repository's own `test_nested_output` — writer `co2` opened while `co1`
is active, then closed while `co1` is still active — `co2`'s entire
buffered block is flushed into the middle of `co1`'s run (because
`__exit__` unconditionally clears `has_active_output` and promotes the
queue front), so `co1`'s header/lines/trailer are *not* contiguous in
stdout. -/
theorem c8_nested_writers_interleaved :
    (cohRun ["co1", "co2"] nestedTrace).stdout =
      [(0, ">>> Begin output from: co1\n"),
       (0, "co1: foo\n"),
       (0, "co1: bar\n"),
       (1, ">>> Begin output from: co2\n"),
       (1, "co2: foo\n"),
       (1, "co2: bar\n"),
       (1, "<<< End output from: co2\n"),
       (0, "co1: baz\n"),
       (0, "<<< End output from: co1\n")]
    ∧ contiguousFor 0 ((cohRun ["co1", "co2"] nestedTrace).stdout) = false := by
  constructor
  · decide
  · decide

/-- C9: for a bind chain whose first architecture-specifying layer `l`
defines exclusions, the architecture set resolved for image `imageId`
is `l`'s architecture list minus exactly the `(arch, variant?)` tuples
excluded for that image by exact `(arch, variant)` equality (so a
variant-less exclusion removes only variant-less entries); an image
named by no exclusion entry of `l` gets the full list. -/
theorem c9_exclusions_filter_architectures
    (pre : List BindSourceX) (l : BindSourceX) (post : List BindSourceX)
    (archs : List (String × Option String)) (imageId : String)
    (hpre : ∀ b ∈ pre, b.architectures = none)
    (hl : l.architectures = some archs) :
    (∃ result, architecturesForImage (pre ++ l :: post) imageId = some result
      ∧ ∀ av, av ∈ result ↔ av ∈ archs ∧
          ∀ e ∈ l.exclusions, excludes e imageId av = false)
    ∧ ((∀ e ∈ l.exclusions, e.imageId ≠ imageId) →
        architecturesForImage (pre ++ l :: post) imageId = some archs) := by
  have hskip := architecturesForImage_skip (l :: post) imageId pre hpre
  have hmain : architecturesForImage (l :: post) imageId
      = some (archs.filter
          (fun av => !(l.exclusions.any (fun e => excludes e imageId av)))) := by
    simp only [architecturesForImage, hl]
  constructor
  · refine ⟨_, hskip.trans hmain, ?_⟩
    intro av
    simp only [List.mem_filter, Bool.not_eq_true', List.any_eq_false]
    constructor
    · rintro ⟨h1, h2⟩
      exact ⟨h1, fun e he => by simpa using h2 e he⟩
    · rintro ⟨h1, h2⟩
      exact ⟨h1, fun e he => by simpa using h2 e he⟩
  · intro hnone
    rw [hskip, hmain]
    congr 1
    apply List.filter_eq_self.mpr
    intro av _
    simp only [Bool.not_eq_true', List.any_eq_false]
    intro e he
    have : (e.imageId == imageId) = false := by
      simpa using hnone e he
    simp [excludes, this]

/-- C9 witness: the scenario of `tests/bind_test.py`: the architecture
set for `no_amd_image` drops `("amd64", no variant)` and keeps the
other two tuples; any other image keeps all three. -/
theorem c9_exclusions_filter_architectures_witness :
    ((∀ b ∈ ([] : List BindSourceX), b.architectures = none)
      ∧ foobarSource.architectures
          = some [("amd64", none), ("arm", some "v7"), ("arm64", some "v8")])
    ∧ ((∃ result,
          architecturesForImage ([] ++ foobarSource :: []) "no_amd_image"
            = some result
          ∧ ∀ av, av ∈ result ↔
              av ∈ [("amd64", none), ("arm", some "v7"), ("arm64", some "v8")] ∧
              ∀ e ∈ foobarSource.exclusions,
                excludes e "no_amd_image" av = false)
        ∧ ((∀ e ∈ foobarSource.exclusions, e.imageId ≠ "no_amd_image") →
            architecturesForImage ([] ++ foobarSource :: []) "no_amd_image"
              = some [("amd64", none), ("arm", some "v7"), ("arm64", some "v8")]))
    ∧ architecturesForImage ([] ++ foobarSource :: []) "any_other_image"
        = some [("amd64", none), ("arm", some "v7"), ("arm64", some "v8")] :=
  ⟨⟨by simp, rfl⟩,
   c9_exclusions_filter_architectures [] foobarSource []
     [("amd64", none), ("arm", some "v7"), ("arm64", some "v8")] "no_amd_image"
     (by simp) rfl,
   (c9_exclusions_filter_architectures [] foobarSource []
     [("amd64", none), ("arm", some "v7"), ("arm64", some "v8")] "any_other_image"
     (by simp) rfl).2 (by decide)⟩

/-- C10: the two public lookup queries return the *first* match and
`None` (rather than raising) when no entity matches:
`Config.get_top_level` over `images + groups` and
`BoundConfig.get_image` over the bound images. -/
theorem c10_lookup_first_match_or_none :
    (∀ (c : Config) (tid : String),
      ((∀ t ∈ c.images.map TopLevel.image ++ c.groups.map TopLevel.group,
          t.id ≠ tid) → getTopLevel c tid = none)
      ∧ (∀ pre x post,
          c.images.map TopLevel.image ++ c.groups.map TopLevel.group
            = pre ++ x :: post →
          x.id = tid → (∀ y ∈ pre, y.id ≠ tid) →
          getTopLevel c tid = some x))
    ∧ (∀ (bc : BoundConfig) (iid : String),
      ((∀ b ∈ bc.boundImages, b.id ≠ iid) → getImage bc iid = none)
      ∧ (∀ pre x post, bc.boundImages = pre ++ x :: post → x.id = iid →
          (∀ y ∈ pre, y.id ≠ iid) → getImage bc iid = some x)) := by
  constructor
  · intro c tid
    constructor
    · intro h
      apply List.find?_eq_none.mpr
      intro t ht
      simpa using h t ht
    · intro pre x post hdec hx hpre
      unfold getTopLevel
      rw [hdec]
      exact find?_append_first _ pre x post (by simp [hx])
        (fun y hy => by simpa using hpre y hy)
  · intro bc iid
    constructor
    · intro h
      apply List.find?_eq_none.mpr
      intro b hb
      simpa using h b hb
    · intro pre x post hdec hx hpre
      unfold getImage
      rw [hdec]
      exact find?_append_first _ pre x post (by simp [hx])
        (fun y hy => by simpa using hpre y hy)

/-- C10 witness: on the sample config the group is found behind the
image, an absent id gives `None`; on the solo bound config the image is
found and an absent id gives `None`. -/
theorem c10_lookup_first_match_or_none_witness :
    getTopLevel sampleConfig "humble" = some (TopLevel.group sampleGroup)
    ∧ getTopLevel sampleConfig "nope" = none
    ∧ getImage soloConfig "solo" = some (fixtureImage "solo" [])
    ∧ getImage soloConfig "nope" = none :=
  ⟨(c10_lookup_first_match_or_none.1 sampleConfig "humble").2
      [TopLevel.image sampleImage] (TopLevel.group sampleGroup) []
      (by decide) (by decide) (by decide),
   (c10_lookup_first_match_or_none.1 sampleConfig "nope").1 (by decide),
   (c10_lookup_first_match_or_none.2 soloConfig "solo").2
      [] (fixtureImage "solo" []) [] (by decide) (by decide) (by decide),
   (c10_lookup_first_match_or_none.2 soloConfig "nope").1 (by decide)⟩

/-- C2: lowering a bound image with a non-empty architecture list
(with pairwise distinct suffixed FQNs and no degenerate empty-string
variants) into a fresh graph produces exactly one `OCIImage` node per
architecture — FQN suffixed with `-arch` and additionally `-variant`
when a variant is present, carrying the image's build context and
arguments — plus exactly one `OCIManifest` whose FQN is the base FQN,
whose member list is the suffixed FQNs in input order, and which
depends on all the per-arch images. -/
theorem c2_multiarch_lowering (bc : BoundConfig) (b : BoundImage) (fuel : Nat)
    (hne : b.buildArchitectures ≠ [])
    (hv : ∀ av ∈ b.buildArchitectures, av.2 ≠ some "")
    (hnd : (b.buildArchitectures.map
        (fun av => (specArchImage b av).fullyQualifiedName)).Nodup)
    (hdep : dependentsOf bc b.id = []) :
    extendOciGraph (fuel + 1) [] bc b =
      (b.buildArchitectures.map
          (fun av => (OCINode.image (specArchImage b av), ([] : List OCINode)))
        ++ [(OCINode.manifest
              { fullyQualifiedName := b.fullyQualifiedName
                images := b.buildArchitectures.map
                  (fun av => (specArchImage b av).fullyQualifiedName) },
            b.buildArchitectures.map (fun av => OCINode.image (specArchImage b av)))],
       b.buildArchitectures.map (fun av => OCINode.image (specArchImage b av))) := by
  have hmk : ∀ av ∈ b.buildArchitectures,
      OCINode.image (mkArchImage b av) = OCINode.image (specArchImage b av) := by
    intro av hav
    unfold mkArchImage specArchImage tagSuffix
    cases h2 : av.2 with
    | none => simp [String.append_assoc]
    | some v =>
      have hvne : ¬(v.isEmpty = true) := by
        rw [String.isEmpty_iff v]
        intro hc
        exact (hv av hav) (by rw [h2, hc])
      simp [if_neg hvne, String.append_assoc]
  have hmapn : b.buildArchitectures.map (fun av => OCINode.image (mkArchImage b av))
      = b.buildArchitectures.map (fun av => OCINode.image (specArchImage b av)) :=
    List.map_congr_left hmk
  have hndnodes :
      (b.buildArchitectures.map (fun av => OCINode.image (specArchImage b av))).Nodup := by
    apply List.Nodup.of_map OCINode.fqn
    rw [List.map_map]
    simpa [Function.comp, OCINode.fqn] using hnd
  simp only [extendOciGraph, List.any_nil, Bool.false_eq_true, if_false,
    buildArchitecturesPy]
  rw [hmapn]
  rw [foldl_dictInsert_fresh _ [] (by simp) hndnodes]
  rw [List.nil_append]
  rw [dictInsert_fresh _ _ _ (by
    intro e he
    rw [List.map_map] at he
    rcases List.mem_map.mp he with ⟨av, hav, rfl⟩
    simp [Function.comp])]
  rw [hdep]
  simp only [List.foldl_nil, List.map_map]
  simp [Function.comp_def, OCINode.fqn]

/-- C2 witness: lowering an image with architectures
`[amd64, (arm64, v8)]` yields the two suffixed per-arch images and the
manifest over both, in input order. -/
theorem c2_multiarch_lowering_witness :
    extendOciGraph 1 [] soloConfig
        (fixtureImage "multi" [("amd64", none), ("arm64", some "v8")])
      = ([(OCINode.image ⟨"localhost/multi:latest-amd64", "ctx/multi", [],
              some "amd64", none⟩, []),
          (OCINode.image ⟨"localhost/multi:latest-arm64-v8", "ctx/multi", [],
              some "arm64", some "v8"⟩, []),
          (OCINode.manifest ⟨"localhost/multi:latest",
              ["localhost/multi:latest-amd64", "localhost/multi:latest-arm64-v8"]⟩,
            [OCINode.image ⟨"localhost/multi:latest-amd64", "ctx/multi", [],
                some "amd64", none⟩,
             OCINode.image ⟨"localhost/multi:latest-arm64-v8", "ctx/multi", [],
                some "arm64", some "v8"⟩])],
         [OCINode.image ⟨"localhost/multi:latest-amd64", "ctx/multi", [],
             some "amd64", none⟩,
          OCINode.image ⟨"localhost/multi:latest-arm64-v8", "ctx/multi", [],
             some "arm64", some "v8"⟩]) :=
  (c2_multiarch_lowering soloConfig
      (fixtureImage "multi" [("amd64", none), ("arm64", some "v8")]) 0
      (by decide) (by decide) (by decide) (by decide)).trans (by decide)

/-- C1: `${name}` substitution against a bind chain.
(a) A string with zero parameter references is returned unchanged, as
the identical string (the `str.format` phase is skipped entirely).
(b) When some referenced name is provided by no layer, substitution
fails with a `MissingParameter` error listing the source names of all
layers consulted.  (c) On a well-formed templated string (presented as
tokens whose literal chunks contain no brace and whose reference names
are not all digits), every `${name}` occurrence is replaced by the
value `argLookup` resolves for it, layers walked outermost-first.
(d) `argLookup` indeed returns the value of the first layer whose
arguments contain the name.  Outside the well-formed fragment the claim
fails: the `str.format` rendering phase collapses doubled braces and
raises on stray single braces and all-digit names (see the
counterexample). -/
theorem c1_substitution :
    (∀ (s : String) (links : BindChain),
      findParams s = [] → fromStringAndChain s links = .ok s)
    ∧ (∀ (s : String) (links : BindChain),
      (∃ n ∈ findParams s, argLookup links n = none) →
      ∃ m, fromStringAndChain s links
        = .error (.missingParameter ⟨m, links.map (fun l => l.sourceName)⟩))
    ∧ (∀ (ts : List Tok) (links : BindChain),
      (∀ t ∈ ts, tokOk t = true) →
      (∀ s ∈ refNames ts, argLookup links s ≠ none) →
      fromStringAndChain (String.mk (renderToks ts)) links
        = .ok (String.mk (substToksChain links ts)))
    ∧ (∀ (pre : BindChain) (l : BindSource) (post : BindChain) (name : String)
        (p : String × String),
      (∀ b ∈ pre, b.arguments.find? (fun a => a.1 == name) = none) →
      l.arguments.find? (fun a => a.1 == name) = some p →
      argLookup (pre ++ l :: post) name = some ⟨l.sourceName, p.2⟩) := by
  refine ⟨?_, ?_, ?_, ?_⟩
  · intro s links h
    simp only [fromStringAndChain, h, List.isEmpty_nil, if_true]
  · rintro s links ⟨n, hn, hnone⟩
    have hemp : (findParams s).isEmpty = false := by
      cases hq : findParams s with
      | nil => rw [hq] at hn; cases hn
      | cons a as => rfl
    obtain ⟨m, hm⟩ := resolveValues_err links (findParams s) ⟨n, hn, hnone⟩
    refine ⟨m, ?_⟩
    simp only [fromStringAndChain, hemp, Bool.false_eq_true, if_false]
    rw [hm]
  · intro ts links hok hres
    have hfind : findParams (String.mk (renderToks ts)) = refNames ts :=
      findParamsAux_render ts hok
    by_cases hemp : refNames ts = []
    · have hie : (findParams (String.mk (renderToks ts))).isEmpty = true := by
        rw [hfind, hemp]
        rfl
      simp only [fromStringAndChain, hie, if_true]
      rw [substToksChain_no_refs links ts hemp]
    · have hie : (findParams (String.mk (renderToks ts))).isEmpty = false := by
        rw [hfind]
        cases hq : refNames ts with
        | nil => exact absurd hq hemp
        | cons a as => rfl
      have hrv := resolveValues_ok links (refNames ts) hres
      simp only [fromStringAndChain, hie, Bool.false_eq_true, if_false]
      rw [hfind, hrv]
      have hlkeq : ∀ s ∈ refNames ts,
          ((((refNames ts).map
              (fun n => (n, ((argLookup links n).getD ⟨"", ""⟩).value))).find?
              (fun p => p.1 == s)).map (fun p => p.2))
            = (argLookup links s).map (fun bv => bv.value) := by
        intro s hs
        rw [find?_map_keyed
          (fun n => (n, ((argLookup links n).getD ⟨"", ""⟩).value))
          (refNames ts) s hs (fun m => rfl)]
        obtain ⟨bv, hbv⟩ := Option.ne_none_iff_exists'.mp (hres s hs)
        simp [hbv]
      have hsome : ∀ s ∈ refNames ts,
          ((((refNames ts).map
              (fun n => (n, ((argLookup links n).getD ⟨"", ""⟩).value))).find?
              (fun p => p.1 == s)).isSome = true) := by
        intro s hs
        rw [find?_map_keyed
          (fun n => (n, ((argLookup links n).getD ⟨"", ""⟩).value))
          (refNames ts) s hs (fun m => rfl)]
        rfl
      have hpf := pyFormat_render
        ((refNames ts).map
          (fun n => (n, ((argLookup links n).getD ⟨"", ""⟩).value)))
        ts hok hsome
      have hvals : (((refNames ts).map
            (fun n => (n, (argLookup links n).getD ⟨"", ""⟩))).map
            (fun p => (p.1, p.2.value)))
          = (refNames ts).map
              (fun n => (n, ((argLookup links n).getD ⟨"", ""⟩).value)) := by
        simp only [List.map_map, Function.comp_def]
      show (match pyFormat (((refNames ts).map
            (fun n => (n, (argLookup links n).getD ⟨"", ""⟩))).map
            (fun p => (p.1, p.2.value))) (toFormatString (renderToks ts)) with
        | Except.ok out => Except.ok (String.mk out)
        | Except.error e => Except.error (SubstError.formatError e))
        = Except.ok (String.mk (substToksChain links ts))
      rw [hvals, toFormatString_render ts hok, hpf]
      show Except.ok (String.mk (substToksWith _ ts))
        = Except.ok (String.mk (substToksChain links ts))
      rw [substToksWith_eq_chain links _ ts hlkeq]
  · intro pre
    induction pre with
    | nil =>
      intro l post name p hpre hfind
      simp [argLookup, hfind]
    | cons b bs ih =>
      intro l post name p hpre hfind
      have hb : b.arguments.find? (fun a => a.1 == name) = none :=
        hpre b (by simp)
      rw [List.cons_append]
      rw [show argLookup (b :: (bs ++ l :: post)) name
        = argLookup (bs ++ l :: post) name by simp [argLookup, hb]]
      exact ih l post name p (fun x hx => hpre x (by simp [hx])) hfind

/-- C1 witness: over the chain CLI (`x=1`) then group (`x=2`, `y=3`):
a reference-free string is returned identically; an unprovided `${z}`
fails with the consulted sources; `a${x}b${y}c` becomes `a1b3c` with
`x` taken from the outermost layer; and the lookups return the first
layer's values. -/
theorem c1_substitution_witness :
    (findParams "plain" = []
      ∧ fromStringAndChain "plain" [cliSource, groupSource] = .ok "plain")
    ∧ (∃ m, fromStringAndChain "${z}" [cliSource, groupSource]
        = .error (.missingParameter ⟨m, ["__command_line__", "humble"]⟩))
    ∧ fromStringAndChain (String.mk (renderToks c1Toks)) [cliSource, groupSource]
        = .ok "a1b3c"
    ∧ argLookup [cliSource, groupSource] "x" = some ⟨"__command_line__", "1"⟩
    ∧ argLookup [cliSource, groupSource] "y" = some ⟨"humble", "3"⟩ := by
  have hplain : findParams "plain" = [] := by
    simp [findParams, findParamsAux, matchRef, isSpaceChar, isParamChar]
  have hz : findParams "${z}" = ["z"] := by
    simp [findParams, findParamsAux, matchRef, isSpaceChar, isParamChar]
  refine ⟨⟨hplain, c1_substitution.1 "plain" [cliSource, groupSource] hplain⟩,
    ?_, ?_, ?_, ?_⟩
  · exact c1_substitution.2.1 "${z}" [cliSource, groupSource]
      ⟨"z", by rw [hz]; simp, by decide⟩
  · exact (c1_substitution.2.2.1 c1Toks [cliSource, groupSource]
      (by decide) (by decide)).trans (by decide)
  · exact c1_substitution.2.2.2 [] cliSource [groupSource] "x" ("x", "1")
      (by simp) (by decide)
  · exact c1_substitution.2.2.2 [cliSource] groupSource [] "y" ("y", "3")
      (by decide) (by decide)

/-- C1 counterexample: the rendering phase is `str.format`, so
substitution does not treat non-reference text verbatim.  With the CLI
layer providing `x=1`: `${x}{{` renders to `1{` (the doubled opening
brace collapses, where verbatim replacement of `${x}` alone would give
`1{{`); `${x}{y}` raises `KeyError` on the plain-brace field `{y}`
(verbatim replacement would give `1{y}`); and with a layer providing a
value under the all-digit name `123`, `${123}` raises `IndexError`
because `{123}` is a positional index to `str.format` (verbatim
replacement would give `7`). -/
theorem c1_substitution_counterexample :
    (fromStringAndChain "${x}\x7b\x7b" [cliSource] = .ok "1\x7b"
      ∧ fromStringAndChain "${x}\x7b\x7b" [cliSource] ≠ .ok "1\x7b\x7b")
    ∧ (fromStringAndChain "${x}{y}" [cliSource]
        = .error (.formatError (.keyError "y"))
      ∧ fromStringAndChain "${x}{y}" [cliSource] ≠ .ok "1{y}")
    ∧ (fromStringAndChain "${123}" [digitSource]
        = .error (.formatError (.indexError "123"))
      ∧ fromStringAndChain "${123}" [digitSource] ≠ .ok "7") := by
  have h1 : fromStringAndChain "${x}\x7b\x7b" [cliSource] = .ok "1\x7b" := by
    simp [fromStringAndChain, findParams, findParamsAux, matchRef, isSpaceChar,
      isParamChar, resolveValues, argumentValue, argLookup, cliSource,
      toFormatString, pyFormat, isFieldChar, List.dropWhile, List.takeWhile,
      Except.map, Except.bind, Function.comp_def]
    rfl
  have h2 : fromStringAndChain "${x}{y}" [cliSource]
      = .error (.formatError (.keyError "y")) := by
    simp [fromStringAndChain, findParams, findParamsAux, matchRef, isSpaceChar,
      isParamChar, resolveValues, argumentValue, argLookup, cliSource,
      toFormatString, pyFormat, isFieldChar, List.dropWhile, List.takeWhile,
      Except.map, Except.bind, Function.comp_def]
    rfl
  have h3 : fromStringAndChain "${123}" [digitSource]
      = .error (.formatError (.indexError "123")) := by
    simp [fromStringAndChain, findParams, findParamsAux, matchRef, isSpaceChar,
      isParamChar, resolveValues, argumentValue, argLookup, digitSource,
      toFormatString, pyFormat, isFieldChar, List.dropWhile, List.takeWhile,
      Except.map, Except.bind, Function.comp_def]
    rfl
  refine ⟨⟨h1, ?_⟩, ⟨h2, ?_⟩, h3, ?_⟩
  · rw [h1]
    simp
  · rw [h2]
    simp
  · rw [h3]
    simp

theorem pushWorkFor_beq (a b : String) :
    (pushWorkFor a == pushWorkFor b) = (a == b) := by
  by_cases h : a = b
  · simp [pushWorkFor, h]
  · simp [pushWorkFor, h]

theorem imageBuild_ne_pushWorkFor (i : OCIImage) (f : String) :
    imageBuild i ≠ pushWorkFor f := by
  simp [imageBuild, pushWorkFor]

theorem manifestPush_ne_pushWorkFor (m : OCIManifest) (f : String) :
    manifestPush m ≠ pushWorkFor f := by
  simp [manifestPush, pushWorkFor]

theorem buildah_countPush (gr : OCIGraph) (np : List String) (f : String) :
    ∀ (order : List OCINode) (st : BuildahState),
    ((order.foldl (buildahStep gr true np) st).workGraph.countP
        (fun e => e.1 == pushWorkFor f))
      = st.workGraph.countP (fun e => e.1 == pushWorkFor f)
        + (if f ∈ np then 0 else order.countP (isImageWithFqn f)) := by
  intro order
  induction order with
  | nil => intro st; simp
  | cons n rest ih =>
    intro st
    rw [List.foldl_cons, ih, List.countP_cons]
    cases n with
    | image i =>
      by_cases hc : np.contains i.fullyQualifiedName
      · have hblock : (buildahStep gr true np st (OCINode.image i)).workGraph.countP
            (fun e => e.1 == pushWorkFor f)
            = st.workGraph.countP (fun e => e.1 == pushWorkFor f) := by
          simp only [buildahStep, hc, Bool.not_true, Bool.and_false, Bool.false_eq_true,
            if_false]
          rw [List.countP_append]
          simp [beq_eq_false_iff_ne.mpr (imageBuild_ne_pushWorkFor i f)]
        rw [hblock]
        by_cases hnp : f ∈ np
        · simp [hnp]
        · have hif : (i.fullyQualifiedName == f) = false := by
            rw [beq_eq_false_iff_ne]
            intro hif
            exact hnp (by rw [← hif]; simpa using hc)
          simp [hnp, isImageWithFqn, hif]
      · have hcf : np.contains i.fullyQualifiedName = false := by
          simpa using hc
        have hblock : (buildahStep gr true np st (OCINode.image i)).workGraph.countP
            (fun e => e.1 == pushWorkFor f)
            = st.workGraph.countP (fun e => e.1 == pushWorkFor f)
              + (if i.fullyQualifiedName == f then 1 else 0) := by
          simp only [buildahStep, hcf, Bool.not_false, Bool.and_true, if_true]
          rw [List.countP_append]
          simp only [List.countP_cons, List.countP_nil, imagePush]
          have h1 : (imageBuild i == pushWorkFor f) = false :=
            beq_eq_false_iff_ne.mpr (imageBuild_ne_pushWorkFor i f)
          have h2 : (Work.retry (Work.cmd ["buildah", "push", i.fullyQualifiedName]
              none) == pushWorkFor f) = (i.fullyQualifiedName == f) :=
            pushWorkFor_beq i.fullyQualifiedName f
          simp only [h1, h2, Bool.false_eq_true, if_false]
          omega
        rw [hblock]
        by_cases hnp : f ∈ np
        · have hif : (i.fullyQualifiedName == f) = false := by
            rw [beq_eq_false_iff_ne]
            intro hif
            rw [hif] at hcf
            simp [hnp] at hcf
          simp [hnp, hif]
        · simp only [hnp, if_false, isImageWithFqn]
          omega
    | manifest m =>
      have hblock : (buildahStep gr true np st (OCINode.manifest m)).workGraph.countP
          (fun e => e.1 == pushWorkFor f)
          = st.workGraph.countP (fun e => e.1 == pushWorkFor f) := by
        simp only [buildahStep, if_true]
        rw [List.countP_append, List.countP_append, List.countP_append]
        have h1 : (manifestCreate m == pushWorkFor f) = false := by
          simp [manifestCreate, pushWorkFor]
        have h2 : ((manifestAdd m).map (fun a => (a, [manifestCreate m]))).countP
            (fun e => e.1 == pushWorkFor f) = 0 := by
          rw [List.countP_eq_zero]
          intro e he
          rcases List.mem_map.mp he with ⟨a, ha, rfl⟩
          rcases List.mem_map.mp ha with ⟨fqn, _, rfl⟩
          simp [pushWorkFor]
        have h3 : (manifestPush m == pushWorkFor f) = false :=
          beq_eq_false_iff_ne.mpr (manifestPush_ne_pushWorkFor m f)
        simp [h1, h2, h3]
      rw [hblock]
      simp [isImageWithFqn]

theorem buildah_pushEntry (gr : OCIGraph) (np : List String) (f : String) :
    ∀ (order : List OCINode) (st : BuildahState),
    ∀ e ∈ (order.foldl (buildahStep gr true np) st).workGraph,
      e.1 = pushWorkFor f →
      e ∈ st.workGraph ∨ ∃ i : OCIImage, OCINode.image i ∈ order ∧
        i.fullyQualifiedName = f ∧ e.2 = [imageBuild i] := by
  intro order
  induction order with
  | nil =>
    intro st e he _
    exact Or.inl he
  | cons n rest ih =>
    intro st e he hkey
    rw [List.foldl_cons] at he
    rcases ih (buildahStep gr true np st n) e he hkey with hstep | ⟨i, hi, hif, hval⟩
    · cases n with
      | image i =>
        by_cases hc : np.contains i.fullyQualifiedName
        · simp only [buildahStep, hc, Bool.not_true, Bool.and_false,
            Bool.false_eq_true, if_false] at hstep
          rcases List.mem_append.mp hstep with hin | hone
          · exact Or.inl hin
          · have he1 : e.1 = imageBuild i := by
              have hx := List.mem_singleton.mp hone
              rw [hx]
            exact absurd (he1 ▸ hkey).symm (Ne.symm (imageBuild_ne_pushWorkFor i f))
        · have hcf : np.contains i.fullyQualifiedName = false := by simpa using hc
          simp only [buildahStep, hcf, Bool.not_false, Bool.and_true, if_true] at hstep
          rcases List.mem_append.mp hstep with hin | htwo
          · exact Or.inl hin
          · rcases List.mem_cons.mp htwo with h1 | h2
            · rw [h1] at hkey
              exact absurd hkey (imageBuild_ne_pushWorkFor i f)
            · have he2 : e = (imagePush i, [imageBuild i]) := by simpa using h2
              have hif : i.fullyQualifiedName = f := by
                rw [he2] at hkey
                simpa [imagePush, pushWorkFor] using hkey
              exact Or.inr ⟨i, by simp, hif, by rw [he2]⟩
      | manifest m =>
        simp only [buildahStep, if_true] at hstep
        rcases List.mem_append.mp hstep with hin3 | hpushone
        · rcases List.mem_append.mp hin3 with hin2 | hadds
          · rcases List.mem_append.mp hin2 with hin | hcreate
            · exact Or.inl hin
            · have he1 : e.1 = manifestCreate m := by
                have hx := List.mem_singleton.mp hcreate
                rw [hx]
              rw [he1] at hkey
              simp [manifestCreate, pushWorkFor] at hkey
          · rcases List.mem_map.mp hadds with ⟨a, ha, rfl⟩
            rcases List.mem_map.mp ha with ⟨fqn, _, rfl⟩
            simp [pushWorkFor] at hkey
        · have he1 : e = (manifestPush m, manifestAdd m) := by simpa using hpushone
          rw [he1] at hkey
          exact absurd hkey (manifestPush_ne_pushWorkFor m f)
    · exact Or.inr ⟨i, by simp [hi], hif, hval⟩

theorem image_eq_of_nodup_fqn :
    ∀ (order : List OCINode),
    (order.filterMap imageFqnOf).Nodup →
    ∀ i j : OCIImage, OCINode.image i ∈ order → OCINode.image j ∈ order →
    i.fullyQualifiedName = j.fullyQualifiedName → i = j := by
  intro order
  induction order with
  | nil =>
    intro _ i j hi
    cases hi
  | cons n rest ih =>
    intro hnd i j hi hj hf
    have hnd' : (rest.filterMap imageFqnOf).Nodup := by
      cases n with
      | image k => exact (List.nodup_cons.mp (by simpa [imageFqnOf] using hnd)).2
      | manifest m => simpa [imageFqnOf] using hnd
    rcases List.mem_cons.mp hi with hih | hit
    · rcases List.mem_cons.mp hj with hjh | hjt
      · rw [← hih] at hjh
        exact (OCINode.image.injEq i j).mp hjh.symm
      · exfalso
        have hk : n = OCINode.image i := hih.symm
        subst hk
        have hmem : i.fullyQualifiedName ∈ rest.filterMap imageFqnOf :=
          List.mem_filterMap.mpr ⟨OCINode.image j, hjt, by simp [imageFqnOf, hf]⟩
        exact (List.nodup_cons.mp (by simpa [imageFqnOf] using hnd)).1 hmem
    · rcases List.mem_cons.mp hj with hjh | hjt
      · exfalso
        have hk : n = OCINode.image j := hjh.symm
        subst hk
        have hmem : j.fullyQualifiedName ∈ rest.filterMap imageFqnOf :=
          List.mem_filterMap.mpr ⟨OCINode.image i, hit, by simp [imageFqnOf, hf]⟩
        exact (List.nodup_cons.mp (by simpa [imageFqnOf] using hnd)).1 hmem
      · exact ih hnd' i j hit hjt hf

theorem countP_isImageWithFqn :
    ∀ (order : List OCINode) (f : String),
    order.countP (isImageWithFqn f)
      = (order.filterMap imageFqnOf).countP (fun s => s == f) := by
  intro order f
  induction order with
  | nil => simp
  | cons n rest ih =>
    cases n with
    | image i => simp [List.countP_cons, isImageWithFqn, imageFqnOf, ih]
    | manifest m => simp [List.countP_cons, isImageWithFqn, imageFqnOf, ih]

/-- C5: in push mode, an `OCIImage` whose FQN appears in some
manifest's member list gets no standalone `buildah push` node in the
work graph, while an image that is a member of no manifest gets exactly
one retry-wrapped `buildah push <fqn>` node, whose sole prerequisite is
that image's build node.  (The image FQNs of the processed order are
pairwise distinct, as `_extend_oci_graph`'s duplicate check
guarantees.) -/
theorem c5_push_pruning (gr : OCIGraph) (order : List OCINode)
    (hnd : (order.filterMap imageFqnOf).Nodup) :
    ∀ i : OCIImage, OCINode.image i ∈ order →
      (i.fullyQualifiedName ∈ imagesToNotPush (gr.map (·.1)) true →
        ∀ e ∈ buildahBuildGraph gr order true,
          e.1 ≠ pushWorkFor i.fullyQualifiedName)
      ∧ (i.fullyQualifiedName ∉ imagesToNotPush (gr.map (·.1)) true →
          (buildahBuildGraph gr order true).countP
              (fun e => e.1 == pushWorkFor i.fullyQualifiedName) = 1
          ∧ ∀ e ∈ buildahBuildGraph gr order true,
              e.1 = pushWorkFor i.fullyQualifiedName → e.2 = [imageBuild i]) := by
  intro i hi
  have hcount := buildah_countPush gr (imagesToNotPush (gr.map (·.1)) true)
    i.fullyQualifiedName order { workGraph := [], ociToWork := [] }
  constructor
  · intro hmem e he
    have hzero : (buildahBuildGraph gr order true).countP
        (fun e => e.1 == pushWorkFor i.fullyQualifiedName) = 0 := by
      show ((order.foldl (buildahStep gr true (imagesToNotPush (gr.map (·.1)) true))
          { workGraph := [], ociToWork := [] }).workGraph.countP
          (fun e => e.1 == pushWorkFor i.fullyQualifiedName)) = 0
      rw [hcount]
      simp [hmem]
    have hne := List.countP_eq_zero.mp hzero e he
    simpa using hne
  · intro hmem
    constructor
    · show ((order.foldl (buildahStep gr true (imagesToNotPush (gr.map (·.1)) true))
          { workGraph := [], ociToWork := [] }).workGraph.countP
          (fun e => e.1 == pushWorkFor i.fullyQualifiedName)) = 1
      rw [hcount, if_neg hmem, countP_isImageWithFqn]
      simp only [List.countP_nil, Nat.zero_add]
      have hfmem : i.fullyQualifiedName ∈ order.filterMap imageFqnOf :=
        List.mem_filterMap.mpr ⟨OCINode.image i, hi, by simp [imageFqnOf]⟩
      exact List.count_eq_one_of_mem hnd hfmem
    · intro e he hkey
      have he' : e ∈ (order.foldl
          (buildahStep gr true (imagesToNotPush (gr.map (·.1)) true))
          { workGraph := [], ociToWork := [] }).workGraph := he
      rcases buildah_pushEntry gr (imagesToNotPush (gr.map (·.1)) true)
          i.fullyQualifiedName order { workGraph := [], ociToWork := [] }
          e he' hkey with hnil | ⟨j, hj, hjf, hval⟩
      · cases hnil
      · have hji : j = i := image_eq_of_nodup_fqn order hnd j i hj hi hjf
        rw [hval, hji]

/-- C5 witness: on a concrete graph with a manifest member and a
standalone image, the member gets no push node and the standalone image
gets exactly one, depending only on its build. -/
theorem c5_push_pruning_witness :
    ((pushFixtureOrder.filterMap imageFqnOf).Nodup
      ∧ OCINode.image memberImage ∈ pushFixtureOrder
      ∧ OCINode.image standaloneImage ∈ pushFixtureOrder
      ∧ memberImage.fullyQualifiedName
          ∈ imagesToNotPush (pushFixtureGraph.map (·.1)) true
      ∧ standaloneImage.fullyQualifiedName
          ∉ imagesToNotPush (pushFixtureGraph.map (·.1)) true)
    ∧ (∀ e ∈ buildahBuildGraph pushFixtureGraph pushFixtureOrder true,
        e.1 ≠ pushWorkFor memberImage.fullyQualifiedName)
    ∧ ((buildahBuildGraph pushFixtureGraph pushFixtureOrder true).countP
          (fun e => e.1 == pushWorkFor standaloneImage.fullyQualifiedName) = 1
        ∧ ∀ e ∈ buildahBuildGraph pushFixtureGraph pushFixtureOrder true,
            e.1 = pushWorkFor standaloneImage.fullyQualifiedName →
            e.2 = [imageBuild standaloneImage]) :=
  ⟨⟨by decide, by decide, by decide, by decide, by decide⟩,
   (c5_push_pruning pushFixtureGraph pushFixtureOrder (by decide) memberImage
      (by decide)).1 (by decide),
   (c5_push_pruning pushFixtureGraph pushFixtureOrder (by decide) standaloneImage
      (by decide)).2 (by decide)⟩

theorem retryGo_always_fails {E : Type} (att expo mult con : Nat)
    (designated : E → Bool) (inner : Nat → Except E Unit) (err : Nat → E)
    (hf : ∀ i, inner i = .error (err i)) (hd : ∀ i, designated (err i) = true) :
    ∀ fuel i, i + fuel = att → 1 ≤ fuel →
    retryGo att expo mult con designated inner fuel i =
      { calls := fuel,
        sleeps := (List.range' i (fuel - 1)).map (fun j => mult * j ^ expo + con),
        outcome := .error (err (att - 1)) } := by
  intro fuel
  induction fuel with
  | zero => intro i _ h; omega
  | succ f ih =>
    intro i hia _
    simp only [retryGo, hf i, hd i, if_true]
    by_cases hlast : i + 1 ≥ att
    · have hf0 : f = 0 := by omega
      subst hf0
      rw [if_pos hlast]
      have hi : err i = err (att - 1) := by
        congr 1
        omega
      simp [hi]
    · have hfge : 1 ≤ f := by omega
      rw [if_neg hlast]
      rw [ih (i + 1) (by omega) hfge]
      have hr : List.range' i f = i :: List.range' (i + 1) (f - 1) := by
        have hfe : f = (f - 1) + 1 := by omega
        rw [hfe]
        simpa using List.range'_succ i (f - 1) 1
      simp only [Nat.add_sub_cancel, hr, List.map_cons]

/-- C6: an inner work item that raises a designated exception kind on
every invocation is invoked exactly `attempts` times, the wrapper
sleeps `multiplier * i ** exponent + constant` seconds between attempt
`i` and attempt `i + 1` (`i` counted from 0), and after the final
attempt the last caught error is re-raised; a raise of a non-designated
kind propagates immediately after a single invocation with no sleeping. -/
theorem c6_retry_envelope :
    (∀ (E : Type) (att expo mult con : Nat) (designated : E → Bool)
       (inner : Nat → Except E Unit) (err : Nat → E),
       (∀ i, inner i = .error (err i)) → (∀ i, designated (err i) = true) →
       1 ≤ att →
       retryCall att expo mult con designated inner =
         { calls := att,
           sleeps := (List.range (att - 1)).map (fun j => mult * j ^ expo + con),
           outcome := .error (err (att - 1)) })
    ∧ (∀ (E : Type) (att expo mult con : Nat) (designated : E → Bool)
       (inner : Nat → Except E Unit) (e0 : E),
       inner 0 = .error e0 → designated e0 = false → 1 ≤ att →
       retryCall att expo mult con designated inner =
         { calls := 1, sleeps := [], outcome := .error e0 }) := by
  constructor
  · intro E att expo mult con designated inner err hf hd hatt
    unfold retryCall
    rw [retryGo_always_fails att expo mult con designated inner err hf hd att 0
      (by omega) hatt]
    rw [List.range_eq_range']
  · intro E att expo mult con designated inner e0 h0 hnd hatt
    obtain ⟨f, rfl⟩ : ∃ f, att = f + 1 := ⟨att - 1, by omega⟩
    simp [retryCall, retryGo, h0, hnd]

/-- C6 witness: with the default envelope (5 attempts, exponent 2,
multiplier 15, constant 5) an always-failing designated error gives 5
invocations with sleeps 5, 20, 65, 140 seconds and re-raises the error;
a non-designated error propagates after one invocation. -/
theorem c6_retry_envelope_witness :
    retryCall 5 2 15 5 (fun _ : String => true)
        (fun _ => .error "CommandFailed")
      = { calls := 5, sleeps := [5, 20, 65, 140],
          outcome := .error "CommandFailed" }
    ∧ retryCall 5 2 15 5 (fun _ : String => false)
        (fun _ => .error "KeyboardInterrupt")
      = { calls := 1, sleeps := [], outcome := .error "KeyboardInterrupt" } :=
  ⟨(c6_retry_envelope.1 String 5 2 15 5 (fun _ => true)
      (fun _ => .error "CommandFailed") (fun _ => "CommandFailed")
      (fun _ => rfl) (fun _ => rfl) (by omega)).trans (by decide),
   c6_retry_envelope.2 String 5 2 15 5 (fun _ => false)
      (fun _ => .error "KeyboardInterrupt") "KeyboardInterrupt"
      rfl rfl (by omega)⟩

end Buildalot
